import Mathlib

/-! Doxygen-style `@key value` splitting (liblangutil/DoxyStyleComments.h).

A shallow embedding of `splitDoxyStyleComments` and of its forward iterator.
The text is a list of characters (one list element per `char` of the
`std::string_view`).  The regular expression of `operator++` is kept as a
regular-expression term and run by a backtracking matcher with the ECMAScript
rules used by `std::regex` (greedy quantifiers, ordered alternation, `^` and
`$` matching at the two ends of the searched range only, `.` excluding the
line terminators `\n` and `\r`, `\s` being `isspace`).

The second part embeds the two location accessors of `yul::Parser`
(libyul/AsmParser.h).
-/

namespace solidity.langutil

/-! ## Character classes -/

/-- The classification `std::isspace` of the default locale on an `int`
argument: space (32) and the control characters `\t \n \v \f \r` (9 to 13). -/
def isspace (c : Nat) : Bool := c == 32 || (decide (9 ≤ c) && decide (c ≤ 13))

/-- The class `\s` on a character of the text. -/
def isSpaceChar (c : Char) : Bool := isspace c.toNat

/-- The class `[^\s]`. -/
def notSpaceChar (c : Char) : Bool := !isSpaceChar c

/-- The class `.` of ECMAScript: every character but the line terminators. -/
def notLineTerminator (c : Char) : Bool := !(c == '\n' || c == '\r')

/-! ## A backtracking matcher for the fragment of ECMAScript the pattern uses -/

/-- Regular expressions: anchors, one literal character, greedy `*` and `+`
over a character class, concatenation, ordered alternation and capture
groups. -/
inductive Regex where
  | bol : Regex
  | eol : Regex
  | chr : Char → Regex
  | star : (Char → Bool) → Regex
  | plus : (Char → Bool) → Regex
  | seq : Regex → Regex → Regex
  | alt : Regex → Regex → Regex
  | group : Nat → Regex → Regex

/-- A matcher state: the offset reached in the searched range, the characters
from that offset on, and the capture groups closed so far (latest first). -/
structure MState where
  pos : Nat
  rest : List Char
  caps : List (Nat × List Char)

/-- Greedy repetition of a character class: take as many characters as the
class allows, then give them back one at a time until the continuation
succeeds. -/
def greedy (p : Char → Bool) (k : MState → Option MState) :
    Nat → List Char → List (Nat × List Char) → Option MState
  | pos, [], caps => k ⟨pos, [], caps⟩
  | pos, c :: cs, caps =>
    if p c then
      match greedy p k (pos + 1) cs caps with
      | some r => some r
      | none => k ⟨pos, c :: cs, caps⟩
    else k ⟨pos, c :: cs, caps⟩

/-- Depth-first matching with a continuation for what follows; the first
success in backtracking order is the result. -/
def Regex.exec : Regex → MState → (MState → Option MState) → Option MState
  | .bol, s, k => if s.pos = 0 then k s else none
  | .eol, s, k =>
    match s.rest with
    | [] => k s
    | _ :: _ => none
  | .chr c, s, k =>
    match s.rest with
    | [] => none
    | d :: r => if d = c then k ⟨s.pos + 1, r, s.caps⟩ else none
  | .star p, s, k => greedy p k s.pos s.rest s.caps
  | .plus p, s, k =>
    match s.rest with
    | [] => none
    | d :: r => if p d then greedy p k (s.pos + 1) r s.caps else none
  | .seq a b, s, k => a.exec s (fun s1 => b.exec s1 k)
  | .alt a b, s, k =>
    match a.exec s k with
    | some r => some r
    | none => b.exec s k
  | .group i a, s, k =>
    a.exec s (fun s1 => k ⟨s1.pos, s1.rest, (i, s.rest.take (s1.pos - s.pos)) :: s1.caps⟩)

/-- The match results `std::cmatch`: the whole match `cm[0]` and the capture
groups. -/
structure MatchResults where
  whole : List Char
  caps : List (Nat × List Char)

/-- The sub-match `cm[i]`; a group that did not take part is empty. -/
def MatchResults.sub (cm : MatchResults) (i : Nat) : List Char :=
  if i = 0 then cm.whole
  else
    match cm.caps.find? (fun e => e.1 == i) with
    | some e => e.2
    | none => []

/-- One attempt of the pattern at offset `i`, `suffix` being the text from
there on. -/
def matchAt (re : Regex) (i : Nat) (suffix : List Char) : Option MatchResults :=
  match re.exec ⟨i, suffix, []⟩ some with
  | some s => some ⟨suffix.take (s.pos - i), s.caps⟩
  | none => none

/-- The offsets `std::regex_search` tries, from the left. -/
def regex_search_from (re : Regex) : Nat → List Char → Option MatchResults
  | i, [] => matchAt re i []
  | i, c :: cs =>
    match matchAt re i (c :: cs) with
    | some m => some m
    | none => regex_search_from re (i + 1) cs

/-- The search `std::regex_search(first, last, cm, re)`. -/
def regex_search (re : Regex) (text : List Char) : Option MatchResults :=
  regex_search_from re 0 text

/-- The pattern `^\s*@([^\s]+)\s*(.*)(\r\n|\n|$)` of `operator++`. -/
def re : Regex :=
  .seq .bol
    (.seq (.star isSpaceChar)
      (.seq (.chr '@')
        (.seq (.group 1 (.plus notSpaceChar))
          (.seq (.star isSpaceChar)
            (.seq (.group 2 (.star notLineTerminator))
              (.group 3 (.alt (.seq (.chr '\r') (.chr '\n')) (.alt (.chr '\n') .eol))))))))

/-! ## The iterator -/

/-- The iterator of `KeyValuePairsParser`. -/
structure iterator where
  m_text : List Char
  m_key : List Char
  m_value : List Char
  m_ok : Bool
  deriving DecidableEq, Repr

/-- The comparison `operator==`: the remaining text and the flag. -/
def iterator.equals (a b : iterator) : Bool :=
  decide (a.m_text = b.m_text) && decide (a.m_ok = b.m_ok)

/-- The dereference `operator*`. -/
def iterator.deref (it : iterator) : List Char × List Char × Bool :=
  (it.m_key, it.m_value, it.m_ok)

/-- The reset `invalidate()`. -/
def iterator.invalidate (_it : iterator) : iterator := ⟨[], [], [], false⟩

/-- The loop `while (!m_value.empty() && std::isspace(m_value.back()))
m_value.remove_suffix(1);`. -/
def trimBack (v : List Char) : List Char := (v.reverse.dropWhile isSpaceChar).reverse

/-- The loop `while (!m_text.empty() && std::isspace(m_text.empty()))
m_text.remove_prefix(1);`: the argument of `isspace` is the boolean
`m_text.empty()` converted to `int`. -/
def skipLeading : List Char → List Char
  | [] => []
  | c :: cs =>
    if isspace (if (c :: cs).isEmpty then 1 else 0) then skipLeading cs else c :: cs

/-- The increment `operator++`: consumes one `@key value` pair. -/
def iterator.increment (it : iterator) : iterator :=
  if it.m_text.isEmpty then it.invalidate
  else
    match regex_search re it.m_text with
    | none => it.invalidate
    | some cm =>
      iterator.mk (skipLeading (it.m_text.drop (cm.sub 0).length)) (cm.sub 1)
        (trimBack (cm.sub 2)) true

/-- The constructor `iterator(_text)`: stores the text and advances once. -/
def iterator.ctor (text : List Char) : iterator :=
  (iterator.mk text [] [] false).increment

/-- The range object returned by `splitDoxyStyleComments`. -/
structure KeyValuePairsParser where
  m_text : List Char

/-- The member `begin()`. -/
def KeyValuePairsParser.begin (p : KeyValuePairsParser) : iterator := iterator.ctor p.m_text

/-- The member `end()`. -/
def KeyValuePairsParser.end_ (_p : KeyValuePairsParser) : iterator := iterator.ctor []

/-- The function `splitDoxyStyleComments(_text)`. -/
def splitDoxyStyleComments (text : List Char) : KeyValuePairsParser := ⟨text⟩

/-! ## The line grammar read directly -/

/-- The first success among `f n`, `f (n - 1)`, ..., `f 0`, in this order: the
order in which a greedy quantifier gives characters back. -/
def tryDown {α : Type} (f : Nat → Option α) : Nat → Option α
  | 0 => f 0
  | n + 1 =>
    match f (n + 1) with
    | some r => some r
    | none => tryDown f n

/-- The length of the terminator `(\r\n|\n|$)` matched at the head of the given
text: `\r\n`, `\n`, or the end of the text. -/
def termLen : List Char → Option Nat
  | [] => some 0
  | c :: cs =>
    if c = '\r' then
      match cs with
      | [] => none
      | d :: _ => if d = '\n' then some 2 else none
    else if c = '\n' then some 1 else none

/-- The sub-pattern `(\r\n|\n|$)`. -/
def reT : Regex := .group 3 (.alt (.seq (.chr '\r') (.chr '\n')) (.alt (.chr '\n') .eol))

/-- The sub-pattern `(.*)(\r\n|\n|$)`. -/
def reV : Regex := .seq (.group 2 (.star notLineTerminator)) reT

/-- The sub-pattern `\s*(.*)(\r\n|\n|$)`. -/
def reS : Regex := .seq (.star isSpaceChar) reV

/-- The sub-pattern `([^\s]+)\s*(.*)(\r\n|\n|$)`. -/
def reK : Regex := .seq (.group 1 (.plus notSpaceChar)) reS

/-- The attempt in which `\s*` takes `j` characters of the text `R` that follows
the key: the raw value `(.*)` and the number of characters matched after the
key, when a terminator follows the raw value. -/
def lineTail (R : List Char) (j : Nat) : Option (List Char × Nat) :=
  match termLen ((R.drop j).dropWhile notLineTerminator) with
  | some n =>
    some ((R.drop j).takeWhile notLineTerminator,
      j + ((R.drop j).takeWhile notLineTerminator).length + n)
  | none => none

/-- The pattern of `operator++` unfolded into a scan: leading whitespace, `@`,
the run of non-whitespace characters, then the attempts of `lineTail` from the
longest separator to the empty one.  Gives the key, the raw value and the
length of the whole match. -/
def matchLine (text : List Char) : Option (List Char × List Char × Nat) :=
  match text.dropWhile isSpaceChar with
  | [] => none
  | a :: t =>
    if a = '@' then
      match t with
      | [] => none
      | d :: r =>
        if notSpaceChar d then
          match tryDown (lineTail (r.dropWhile notSpaceChar))
              ((r.dropWhile notSpaceChar).takeWhile isSpaceChar).length with
          | some (V, n) =>
            some (d :: r.takeWhile notSpaceChar, V,
              (text.takeWhile isSpaceChar).length + 1 + (1 + (r.takeWhile notSpaceChar).length) + n)
          | none => none
        else none
    else none

/-- The state left by `invalidate()`, whose entry is `("", "", false)`. -/
def sentinel : iterator := ⟨[], [], [], false⟩

/-- One annotation line of a well-formed text: `@`, the key, the separator,
the value, the padding, and the terminator that joins it to the next line. -/
structure Line where
  k : List Char
  sep : List Char
  v : List Char
  pad : List Char
  term : List Char
  deriving DecidableEq

/-- A space or a tab. -/
def isBlank (c : Char) : Bool := c == ' ' || c == '\t'

/-- The key is non-empty without whitespace; the separator is a non-empty run
of spaces and tabs; the value is non-empty, has no `\r` or `\n` and neither
starts nor ends with whitespace; the padding is a run of spaces and tabs; the
terminator is `\n` or `\r\n`. -/
def Line.wellFormed (l : Line) : Bool :=
  !l.k.isEmpty && l.k.all notSpaceChar &&
  (!l.sep.isEmpty && l.sep.all isBlank) &&
  (!l.v.isEmpty && l.v.all notLineTerminator) &&
  ((match l.v.head? with
    | some c => notSpaceChar c
    | none => false) &&
   (match l.v.getLast? with
    | some c => notSpaceChar c
    | none => false)) &&
  l.pad.all isBlank &&
  (l.term == ['\n'] || l.term == ['\r', '\n'])

/-- The characters of one line, without its terminator. -/
def Line.text (l : Line) : List Char := '@' :: (l.k ++ (l.sep ++ (l.v ++ l.pad)))

/-- The lines joined by their terminators (the terminator of the last line is
not written). -/
def renderLines : List Line → List Char
  | [] => []
  | [l] => l.text
  | l :: l' :: ls => l.text ++ (l.term ++ renderLines (l' :: ls))

/-- The three annotation lines used as the running example. -/
def exampleLines : List Line :=
  [⟨"say-greeting".toList, " ".toList, "Hello World".toList, [], "\n".toList⟩,
   ⟨"say-chat".toList, "     ".toList, "Some more text with @ signs!".toList, "  ".toList,
     "\r\n".toList⟩,
   ⟨"say-farewell".toList, " ".toList, "Good bye.".toList, [], "\n".toList⟩]

/-! ## The variant with the working whitespace loop, and the locations -/

/-- Modelled from the spec: the type `langutil::SourceLocation` of
liblangutil/SourceLocation.h, which is not among the sources: a source range
with a start offset, an end offset and a source index. -/
structure SourceLocation where
  start : Int
  end_ : Int
  sourceIndex : Nat
  deriving DecidableEq

/-- The loop of the variant, `while (!m_text.empty() &&
std::isspace(m_text.front())) m_text.remove_prefix(1);`, which removes the
leading whitespace of the remaining text. -/
def skipLeadingFront : List Char → List Char
  | [] => []
  | c :: cs => if isspace c.toNat then skipLeadingFront cs else c :: cs

/-- The increment of the variant: `operator++` with the loop of
`skipLeadingFront` in the place of the loop of `skipLeading`. -/
def iterator.incrementFront (it : iterator) : iterator :=
  if it.m_text.isEmpty then it.invalidate
  else
    match regex_search re it.m_text with
    | none => it.invalidate
    | some cm =>
      iterator.mk (skipLeadingFront (it.m_text.drop (cm.sub 0).length)) (cm.sub 1)
        (trimBack (cm.sub 2)) true

/-- The constructor of the variant. -/
def iterator.ctorFront (text : List Char) : iterator :=
  (iterator.mk text [] [] false).incrementFront

/-- The member `begin()` of the variant. -/
def KeyValuePairsParser.beginFront (p : KeyValuePairsParser) : iterator :=
  iterator.ctorFront p.m_text

/-- The member `end()` of the variant. -/
def KeyValuePairsParser.endFront (_p : KeyValuePairsParser) : iterator := iterator.ctorFront []

end solidity.langutil

/-! ## Location accessors of the assembly parser (libyul/AsmParser.h) -/

namespace solidity.yul

open solidity.langutil

/-- The enumeration `Parser::ForLoopComponent`. -/
inductive ForLoopComponent where
  | None : ForLoopComponent
  | ForLoopPre : ForLoopComponent
  | ForLoopPost : ForLoopComponent
  | ForLoopBody : ForLoopComponent
  deriving DecidableEq

/-- The data members of `yul::Parser` that hold values of its own: the two
optional locations, the for-loop component and the function flag (the dialect
reference and the char-stream callback are left out). -/
structure Parser where
  m_locationOverride : Option SourceLocation
  m_documentedLocation : Option SourceLocation
  m_currentForLoopComponent : ForLoopComponent
  m_insideFunction : Bool
  deriving DecidableEq

/-- The constructor `Parser::Parser`: stores the location override; the other
members take their default initialisers. -/
def Parser.ctor (_locationOverride : Option SourceLocation) : Parser :=
  ⟨_locationOverride, none, ForLoopComponent.None, false⟩

/-- The member `currentOverridableLocation()`; `scannerLocation` is the value
of `ParserBase::currentLocation()`, the range of the scanner's current
token. -/
def Parser.currentOverridableLocation (p : Parser) (scannerLocation : SourceLocation) :
    SourceLocation × Bool :=
  match p.m_documentedLocation with
  | some documented => (documented, true)
  | none =>
    match p.m_locationOverride with
    | some override => (override, false)
    | none => (scannerLocation, false)

/-- The member `currentLocation()`; `scannerLocation` is the value of
`ParserBase::currentLocation()`. -/
def Parser.currentLocation (p : Parser) (scannerLocation : SourceLocation) : SourceLocation :=
  match p.m_documentedLocation with
  | some documented => documented
  | none =>
    match p.m_locationOverride with
    | some override => override
    | none => scannerLocation

end solidity.yul

namespace solidity.langutil

/-! ## Theorems -/

theorem tryDown_shift {α : Type} (f : Nat → Option α) (n : Nat) :
    tryDown f (n + 1) =
      match tryDown (fun j => f (j + 1)) n with
      | some r => some r
      | none => f 0 := by
  induction n with
  | zero => rfl
  | succ n ih =>
    rw [tryDown]
    cases h : f (n + 1 + 1) with
    | some r => simp [tryDown, h]
    | none => simp only [tryDown, h]; exact ih

theorem tryDown_eq_top {α : Type} (f : Nat → Option α) (n : Nat)
    (h : ∀ j, j < n → f n = none → f j = none) : tryDown f n = f n := by
  cases n with
  | zero => rfl
  | succ n =>
    rw [tryDown]
    cases hf : f (n + 1) with
    | some r => rfl
    | none =>
      simp only
      have : ∀ m, m ≤ n → tryDown f m = none := by
        intro m hm
        induction m with
        | zero => exact h 0 (by omega) hf
        | succ m ihm =>
          rw [tryDown, h (m + 1) (by omega) hf]
          exact ihm (by omega)
      exact this n le_rfl

theorem tryDown_eq_none {α : Type} (f : Nat → Option α) (n : Nat) :
    tryDown f n = none ↔ ∀ j, j ≤ n → f j = none := by
  induction n with
  | zero =>
    constructor
    · intro h j hj
      have : j = 0 := by omega
      subst this; exact h
    · intro h; exact h 0 le_rfl
  | succ n ih =>
    rw [tryDown]
    constructor
    · intro h j hj
      cases hf : f (n + 1) with
      | some r => rw [hf] at h; cases h
      | none =>
        rw [hf] at h
        rcases Nat.lt_or_ge j (n + 1) with hlt | hge
        · exact (ih.mp h) j (by omega)
        · have : j = n + 1 := by omega
          subst this; exact hf
    · intro h
      rw [h (n + 1) le_rfl]
      exact ih.mpr (fun j hj => h j (by omega))

theorem greedy_eq_tryDown (p : Char → Bool) (k : MState → Option MState)
    (rest : List Char) (pos : Nat) (caps : List (Nat × List Char)) :
    greedy p k pos rest caps =
      tryDown (fun j => k ⟨pos + j, rest.drop j, caps⟩) (rest.takeWhile p).length := by
  induction rest generalizing pos with
  | nil => simp [greedy, tryDown]
  | cons c cs ih =>
    by_cases hc : p c = true
    · rw [greedy, if_pos hc, ih]
      simp only [List.takeWhile_cons, hc, if_true, List.length_cons]
      rw [tryDown_shift]
      simp only [List.drop_succ_cons, List.drop_zero, Nat.add_zero]
      have : (fun j => k ⟨pos + 1 + j, cs.drop j, caps⟩) = (fun j => k ⟨pos + (j + 1), cs.drop j, caps⟩) := by
        funext j; congr 2; omega
      rw [this]
      cases tryDown (fun j => k ⟨pos + (j + 1), cs.drop j, caps⟩) (List.takeWhile p cs).length <;> simp
    · rw [greedy, if_neg hc]
      simp [List.takeWhile_cons, hc, tryDown]

theorem drop_takeWhile_length (p : Char → Bool) (l : List Char) :
    l.drop (l.takeWhile p).length = l.dropWhile p := by
  induction l with
  | nil => rfl
  | cons c cs ih =>
    by_cases hc : p c = true
    · simp [List.takeWhile_cons, List.dropWhile_cons, hc, ih]
    · simp [List.takeWhile_cons, List.dropWhile_cons, hc]

theorem take_takeWhile_length (p : Char → Bool) (l : List Char) :
    l.take (l.takeWhile p).length = l.takeWhile p := by
  induction l with
  | nil => rfl
  | cons c cs ih =>
    by_cases hc : p c = true
    · simp [List.takeWhile_cons, hc, ih]
    · simp [List.takeWhile_cons, hc]

theorem drop_lt_takeWhile (p : Char → Bool) (l : List Char) (j : Nat)
    (hj : j < (l.takeWhile p).length) :
    ∃ c r, l.drop j = c :: r ∧ p c = true ∧ r.takeWhile p = (l.takeWhile p).drop (j + 1)
      ∧ r.dropWhile p = l.dropWhile p := by
  induction l generalizing j with
  | nil => simp at hj
  | cons c cs ih =>
    by_cases hc : p c = true
    · simp only [List.takeWhile_cons, hc, if_true, List.length_cons] at hj
      cases j with
      | zero =>
        refine ⟨c, cs, rfl, hc, ?_, ?_⟩
        · simp [List.takeWhile_cons, hc]
        · simp [List.dropWhile_cons, hc]
      | succ j =>
        obtain ⟨d, r, h1, h2, h3, h4⟩ := ih j (by omega)
        refine ⟨d, r, by simpa using h1, h2, ?_, ?_⟩
        · simp [List.takeWhile_cons, hc, h3]
        · simp [List.dropWhile_cons, hc, h4]
    · simp [List.takeWhile_cons, hc] at hj

theorem re_eq : re = .seq .bol (.seq (.star isSpaceChar) (.seq (.chr '@') reK)) := rfl

theorem exec_reT (s : MState) (k : MState → Option MState) :
    reT.exec s k =
      match termLen s.rest with
      | some n => k ⟨s.pos + n, s.rest.drop n, (3, s.rest.take n) :: s.caps⟩
      | none => none := by
  obtain ⟨pos, rest, caps⟩ := s
  cases rest with
  | nil => simp [reT, Regex.exec, termLen]
  | cons c cs =>
    by_cases h1 : c = '\r'
    · subst h1
      cases cs with
      | nil => simp [reT, Regex.exec, termLen]
      | cons d ds =>
        by_cases h2 : d = '\n'
        · subst h2
          have h2 : pos + 1 + 1 - pos = 2 := by omega
          simp [reT, Regex.exec, termLen, h2]
          split <;> simp_all
        · simp [reT, Regex.exec, termLen, h2]
    · by_cases h2 : c = '\n'
      · subst h2
        simp [reT, Regex.exec, termLen]
        try (split <;> simp_all)
      · simp [reT, Regex.exec, termLen, h1, h2]

theorem termLen_of_notLineTerminator (c : Char) (r : List Char)
    (h : notLineTerminator c = true) : termLen (c :: r) = none := by
  have h1 : c ≠ '\r' := by
    intro hc; subst hc; simp [notLineTerminator] at h
  have h2 : c ≠ '\n' := by
    intro hc; subst hc; simp [notLineTerminator] at h
  simp [termLen, h1, h2]

theorem notLineTerminator_of_notSpaceChar (c : Char) (h : notSpaceChar c = true) :
    notLineTerminator c = true := by
  have h1 : c ≠ '\r' := by
    intro hc; subst hc; revert h; decide
  have h2 : c ≠ '\n' := by
    intro hc; subst hc; revert h; decide
  simp [notLineTerminator, h1, h2]

theorem exec_seq (a b : Regex) (s : MState) (k : MState → Option MState) :
    (Regex.seq a b).exec s k = a.exec s (fun s1 => b.exec s1 k) := rfl

theorem exec_group (i : Nat) (a : Regex) (s : MState) (k : MState → Option MState) :
    (Regex.group i a).exec s k =
      a.exec s (fun s1 => k ⟨s1.pos, s1.rest, (i, s.rest.take (s1.pos - s.pos)) :: s1.caps⟩) := rfl

theorem exec_star (p : Char → Bool) (s : MState) (k : MState → Option MState) :
    (Regex.star p).exec s k = greedy p k s.pos s.rest s.caps := rfl

theorem exec_plus_cons (p : Char → Bool) (pos : Nat) (d : Char) (r : List Char)
    (caps : List (Nat × List Char)) (k : MState → Option MState) :
    (Regex.plus p).exec ⟨pos, d :: r, caps⟩ k =
      if p d then greedy p k (pos + 1) r caps else none := rfl

theorem exec_plus_nil (p : Char → Bool) (pos : Nat)
    (caps : List (Nat × List Char)) (k : MState → Option MState) :
    (Regex.plus p).exec ⟨pos, [], caps⟩ k = none := rfl

theorem exec_chr_cons (c : Char) (pos : Nat) (d : Char) (r : List Char)
    (caps : List (Nat × List Char)) (k : MState → Option MState) :
    (Regex.chr c).exec ⟨pos, d :: r, caps⟩ k =
      if d = c then k ⟨pos + 1, r, caps⟩ else none := rfl

theorem exec_chr_nil (c : Char) (pos : Nat)
    (caps : List (Nat × List Char)) (k : MState → Option MState) :
    (Regex.chr c).exec ⟨pos, [], caps⟩ k = none := rfl

theorem exec_bol (s : MState) (k : MState → Option MState) :
    Regex.bol.exec s k = if s.pos = 0 then k s else none := rfl

theorem exec_reV (s : MState) (k : MState → Option MState) :
    reV.exec s k =
      match termLen (s.rest.dropWhile notLineTerminator) with
      | some n =>
        k ⟨s.pos + (s.rest.takeWhile notLineTerminator).length + n,
          (s.rest.dropWhile notLineTerminator).drop n,
          (3, (s.rest.dropWhile notLineTerminator).take n) ::
            (2, s.rest.takeWhile notLineTerminator) :: s.caps⟩
      | none => none := by
  obtain ⟨pos, rest, caps⟩ := s
  simp only [reV, exec_seq, exec_group, exec_star]
  rw [greedy_eq_tryDown, tryDown_eq_top]
  · rw [exec_reT]
    simp [drop_takeWhile_length, take_takeWhile_length]
  · intro j hj _
    obtain ⟨c, r, h1, h2, _, _⟩ := drop_lt_takeWhile _ _ j hj
    rw [exec_reT]
    simp [h1, termLen_of_notLineTerminator c r h2]

theorem exec_reV_none (s : MState) :
    reV.exec s some = none ↔ termLen (s.rest.dropWhile notLineTerminator) = none := by
  rw [exec_reV]
  cases termLen (s.rest.dropWhile notLineTerminator) <;> simp

theorem exec_reS (s : MState) (k : MState → Option MState) :
    reS.exec s k =
      tryDown (fun j => reV.exec ⟨s.pos + j, s.rest.drop j, s.caps⟩ k)
        (s.rest.takeWhile isSpaceChar).length := by
  simp only [reS, exec_seq, exec_star]
  rw [greedy_eq_tryDown]

theorem dropWhile_dropWhile_of_imp (p q : Char → Bool) (h : ∀ c, p c = true → q c = true)
    (l : List Char) : (l.dropWhile p).dropWhile q = l.dropWhile q := by
  induction l with
  | nil => rfl
  | cons c cs ih =>
    by_cases hc : p c = true
    · simp [List.dropWhile_cons, hc, h c hc, ih]
    · simp [List.dropWhile_cons, hc]

theorem exec_reK (s : MState) :
    reK.exec s some =
      match s.rest with
      | [] => none
      | d :: r =>
        if notSpaceChar d then
          reS.exec ⟨s.pos + 1 + (r.takeWhile notSpaceChar).length, r.dropWhile notSpaceChar,
            (1, d :: r.takeWhile notSpaceChar) :: s.caps⟩ some
        else none := by
  obtain ⟨pos, rest, caps⟩ := s
  cases rest with
  | nil => simp [reK, exec_seq, exec_group, exec_plus_nil]
  | cons d r =>
    by_cases hd : notSpaceChar d = true
    · simp only [reK, exec_seq, exec_group, exec_plus_cons, hd, if_true]
      rw [greedy_eq_tryDown, tryDown_eq_top]
      · have h : pos + 1 + (List.takeWhile notSpaceChar r).length - pos
            = (List.takeWhile notSpaceChar r).length + 1 := by omega
        simp [drop_takeWhile_length, take_takeWhile_length, h]
      · intro i hi hnone
        obtain ⟨c, r', h1, h2, _, h4⟩ := drop_lt_takeWhile _ _ i hi
        simp only [drop_takeWhile_length] at hnone
        rw [exec_reS, tryDown_eq_none] at hnone
        have h0 := hnone 0 (Nat.zero_le _)
        rw [exec_reV_none] at h0
        simp only [List.drop_zero] at h0
        rw [exec_reS]
        have hc : isSpaceChar c = false := by
          simpa [notSpaceChar] using h2
        simp only [h1, List.takeWhile_cons, hc, List.length_nil, tryDown, List.drop_zero]
        rw [exec_reV_none]
        simp only
        rw [← dropWhile_dropWhile_of_imp notSpaceChar notLineTerminator
          notLineTerminator_of_notSpaceChar]
        simp only [List.dropWhile_cons, h2, if_true, h4]
        exact h0
    · simp [reK, exec_seq, exec_group, exec_plus_cons, hd]

theorem tryDown_agree {α β : Type} (P : α → β → Prop) (f : Nat → Option α) (g : Nat → Option β)
    (h : ∀ j, (f j = none ∧ g j = none) ∨ (∃ a b, f j = some a ∧ g j = some b ∧ P a b))
    (n : Nat) :
    (tryDown f n = none ∧ tryDown g n = none) ∨
      (∃ a b, tryDown f n = some a ∧ tryDown g n = some b ∧ P a b) := by
  induction n with
  | zero => exact h 0
  | succ n ih =>
    rcases h (n + 1) with ⟨h1, h2⟩ | ⟨a, b, h1, h2, h3⟩
    · simp only [tryDown, h1, h2]; exact ih
    · right; exact ⟨a, b, by simp [tryDown, h1], by simp [tryDown, h2], h3⟩

theorem exec_re_top (text : List Char) :
    re.exec ⟨0, text, []⟩ some =
      match text.dropWhile isSpaceChar with
      | [] => none
      | a :: t =>
        if a = '@' then reK.exec ⟨(text.takeWhile isSpaceChar).length + 1, t, []⟩ some
        else none := by
  rw [re_eq]
  simp only [exec_seq, exec_bol, exec_star, if_true]
  rw [greedy_eq_tryDown, tryDown_eq_top]
  · simp only [drop_takeWhile_length, Nat.zero_add]
    cases text.dropWhile isSpaceChar with
    | nil => simp [exec_chr_nil]
    | cons a t => simp [exec_chr_cons]
  · intro j hj _
    obtain ⟨c, r, h1, h2, _, _⟩ := drop_lt_takeWhile _ _ j hj
    have hc : c ≠ '@' := by
      intro hc; subst hc; revert h2; decide
    simp [h1, exec_chr_cons, hc]

theorem exec_re_pos (i : Nat) (hi : i ≠ 0) (l : List Char) (k : MState → Option MState) :
    re.exec ⟨i, l, []⟩ k = none := by
  rw [re_eq]
  simp [exec_seq, exec_bol, hi]

theorem regex_search_from_pos (i : Nat) (hi : i ≠ 0) (l : List Char) :
    regex_search_from re i l = none := by
  induction l generalizing i with
  | nil => simp [regex_search_from, matchAt, exec_re_pos i hi]
  | cons c cs ih =>
    simp [regex_search_from, matchAt, exec_re_pos i hi, ih (i + 1) (by omega)]

theorem regex_search_eq_matchAt (text : List Char) :
    regex_search re text = matchAt re 0 text := by
  cases text with
  | nil => rfl
  | cons c cs =>
    simp only [regex_search, regex_search_from]
    rw [regex_search_from_pos 1 (by omega)]
    cases matchAt re 0 (c :: cs) <;> rfl

theorem lineTail_agree (p : Nat) (K R : List Char) (j : Nat) :
    (reV.exec ⟨p + j, R.drop j, [(1, K)]⟩ some = none ∧ lineTail R j = none) ∨
      (∃ s r, reV.exec ⟨p + j, R.drop j, [(1, K)]⟩ some = some s ∧ lineTail R j = some r ∧
        (s.pos = p + r.2 ∧ ∃ T, s.caps = [(3, T), (2, r.1), (1, K)])) := by
  rw [exec_reV]
  simp only [lineTail]
  cases termLen (List.dropWhile notLineTerminator (List.drop j R)) with
  | none => left; exact ⟨rfl, rfl⟩
  | some n =>
    right
    refine ⟨_, _, rfl, rfl, ?_, _, rfl⟩
    simp only
    omega

theorem regex_search_re (text : List Char) :
    (regex_search re text = none ∧ matchLine text = none) ∨
      (∃ cm K V n, regex_search re text = some cm ∧ matchLine text = some (K, V, n) ∧
        cm.sub 0 = text.take n ∧ cm.sub 1 = K ∧ cm.sub 2 = V) := by
  rw [regex_search_eq_matchAt]
  simp only [matchAt, exec_re_top, matchLine]
  cases text.dropWhile isSpaceChar with
  | nil => left; exact ⟨rfl, rfl⟩
  | cons a t =>
    by_cases ha : a = '@'
    · simp only [ha, if_true]
      rw [exec_reK]
      cases t with
      | nil => left; exact ⟨rfl, rfl⟩
      | cons d r =>
        by_cases hd : notSpaceChar d = true
        · simp only [hd, if_true]
          rw [exec_reS]
          rcases tryDown_agree _ _ _
            (lineTail_agree ((text.takeWhile isSpaceChar).length + 1 + 1 +
              (r.takeWhile notSpaceChar).length) (d :: r.takeWhile notSpaceChar)
              (r.dropWhile notSpaceChar))
            ((r.dropWhile notSpaceChar).takeWhile isSpaceChar).length with ⟨h1, h2⟩ | ⟨s, b, h1, h2, h3, T, h4⟩
          · left
            simp [h1, h2]
          · right
            obtain ⟨V, n⟩ := b
            simp only [h1, h2]
            refine ⟨_, _, _, _, rfl, rfl, ?_, ?_, ?_⟩
            · simp only [MatchResults.sub, if_true, h3]
              congr 1
              omega
            · simp [MatchResults.sub, h4]
            · simp [MatchResults.sub, h4]
        · left
          simp [hd]
    · left
      simp [ha]

theorem skipLeading_eq (l : List Char) : skipLeading l = l := by
  cases l with
  | nil => rfl
  | cons c cs => simp [skipLeading, isspace]

theorem drop_length_take (l : List Char) (n : Nat) : l.drop (l.take n).length = l.drop n := by
  rw [List.length_take]
  rcases Nat.le_total n l.length with h | h
  · rw [Nat.min_eq_left h]
  · rw [Nat.min_eq_right h, List.drop_length, List.drop_eq_nil_of_le h]

theorem matchLine_nil : matchLine [] = none := rfl

theorem increment_eq (it : iterator) :
    it.increment =
      match matchLine it.m_text with
      | none => sentinel
      | some (K, V, n) => ⟨it.m_text.drop n, K, trimBack V, true⟩ := by
  obtain ⟨text, key, value, ok⟩ := it
  cases text with
  | nil => rfl
  | cons c cs =>
    simp only [iterator.increment, List.isEmpty_cons, Bool.false_eq_true, if_false]
    rcases regex_search_re (c :: cs) with ⟨h1, h2⟩ | ⟨cm, K, V, n, h1, h2, h3, h4, h5⟩
    · rw [h1, h2]; rfl
    · rw [h1, h2]
      simp only [h3, h4, h5, skipLeading_eq, drop_length_take]

theorem tryDown_some {α : Type} (f : Nat → Option α) (n : Nat) (r : α)
    (h : tryDown f n = some r) :
    ∃ j, j ≤ n ∧ f j = some r ∧ ∀ i, j < i → i ≤ n → f i = none := by
  induction n with
  | zero => exact ⟨0, le_rfl, h, fun i h1 h2 => by omega⟩
  | succ n ih =>
    rw [tryDown] at h
    cases hf : f (n + 1) with
    | some a =>
      rw [hf] at h
      exact ⟨n + 1, le_rfl, by rw [hf]; exact h, fun i h1 h2 => by omega⟩
    | none =>
      rw [hf] at h
      obtain ⟨j, hj, h1, h2⟩ := ih h
      refine ⟨j, by omega, h1, fun i hi1 hi2 => ?_⟩
      rcases Nat.lt_or_ge i (n + 1) with hlt | hge
      · exact h2 i hi1 (by omega)
      · have : i = n + 1 := by omega
        subst this; exact hf

theorem tryDown_top {α : Type} (f : Nat → Option α) (n : Nat) (r : α) (h : f n = some r) :
    tryDown f n = some r := by
  cases n with
  | zero => exact h
  | succ n => simp [tryDown, h]

/-- The shape of every successful line match. -/
theorem matchLine_some (text K V : List Char) (n : Nat) (h : matchLine text = some (K, V, n)) :
    ∃ t j m,
      text.dropWhile isSpaceChar = '@' :: t ∧
      K = t.takeWhile notSpaceChar ∧ K ≠ [] ∧
      j ≤ ((t.dropWhile notSpaceChar).takeWhile isSpaceChar).length ∧
      lineTail (t.dropWhile notSpaceChar) j = some (V, m) ∧
      (∀ i, j < i → i ≤ ((t.dropWhile notSpaceChar).takeWhile isSpaceChar).length →
        lineTail (t.dropWhile notSpaceChar) i = none) ∧
      n = (text.takeWhile isSpaceChar).length + 1 + K.length + m := by
  unfold matchLine at h
  cases hd : text.dropWhile isSpaceChar with
  | nil => rw [hd] at h; cases h
  | cons a t =>
    rw [hd] at h
    by_cases ha : a = '@'
    · subst ha
      simp only [if_true] at h
      cases t with
      | nil => cases h
      | cons d r =>
        by_cases hdd : notSpaceChar d = true
        · simp only [hdd, if_true] at h
          cases ht : tryDown (lineTail (r.dropWhile notSpaceChar))
              ((r.dropWhile notSpaceChar).takeWhile isSpaceChar).length with
          | none => rw [ht] at h; cases h
          | some b =>
            obtain ⟨V', m⟩ := b
            rw [ht] at h
            simp only [Option.some.injEq, Prod.mk.injEq] at h
            obtain ⟨hK, hV, hn⟩ := h
            obtain ⟨j, hj, h1, h2⟩ := tryDown_some _ _ _ ht
            refine ⟨d :: r, j, m, rfl, ?_, ?_, ?_, ?_, ?_, ?_⟩
            · simp [List.takeWhile_cons, hdd, ← hK]
            · rw [← hK]; simp
            · simpa [List.dropWhile_cons, hdd] using hj
            · simpa [List.dropWhile_cons, hdd, hV] using h1
            · simpa [List.dropWhile_cons, hdd] using h2
            · rw [← hn, ← hK]; simp; omega
        · simp [hdd] at h
    · simp [ha] at h

theorem end_eq_sentinel (p : KeyValuePairsParser) : p.end_ = sentinel := rfl

theorem increment_ok (it : iterator) (h : it.increment.m_ok = true) :
    ∃ K V n, matchLine it.m_text = some (K, V, n) ∧
      it.increment = ⟨it.m_text.drop n, K, trimBack V, true⟩ := by
  have he := increment_eq it
  cases hm : matchLine it.m_text with
  | none =>
    rw [hm] at he
    rw [he] at h
    cases h
  | some b =>
    obtain ⟨K, V, n⟩ := b
    rw [hm] at he
    exact ⟨K, V, n, rfl, he⟩

theorem increment_not_ok (it : iterator) (h : it.increment.m_ok = false) :
    it.increment = sentinel := by
  have he := increment_eq it
  cases hm : matchLine it.m_text with
  | none => rw [hm] at he; exact he
  | some b =>
    obtain ⟨K, V, n⟩ := b
    rw [hm] at he
    rw [he] at h
    cases h

theorem lineTail_some (R : List Char) (j : Nat) (V : List Char) (m : Nat)
    (h : lineTail R j = some (V, m)) :
    V = (R.drop j).takeWhile notLineTerminator ∧
      ∃ tl, termLen ((R.drop j).dropWhile notLineTerminator) = some tl ∧
        m = j + V.length + tl := by
  unfold lineTail at h
  cases ht : termLen ((R.drop j).dropWhile notLineTerminator) with
  | none => rw [ht] at h; cases h
  | some tl =>
    rw [ht] at h
    simp only [Option.some.injEq, Prod.mk.injEq] at h
    obtain ⟨h1, h2⟩ := h
    exact ⟨h1.symm, tl, rfl, by rw [← h2, h1]⟩

/-- C2: a valid entry produced by the increment has a non-empty key without
whitespace; the remaining text is whitespace, then `@` (its first `@` and first
non-whitespace character), then the key, and the key is followed by the end of
the text or by a whitespace character, so the key is the longest run of
non-whitespace characters after that `@`. -/
theorem C2_key_is_longest_run (it : iterator) (h : it.increment.m_ok = true) :
    it.increment.m_key ≠ [] ∧
      (∀ c ∈ it.increment.m_key, isSpaceChar c = false) ∧
      it.increment.m_key =
        ((it.m_text.dropWhile isSpaceChar).drop 1).takeWhile notSpaceChar ∧
      ∃ ws rest, it.m_text = ws ++ '@' :: (it.increment.m_key ++ rest) ∧
        (∀ c ∈ ws, isSpaceChar c = true) ∧ '@' ∉ ws ∧
        (∀ c, rest.head? = some c → isSpaceChar c = true) := by
  obtain ⟨K, V, n, hm, he⟩ := increment_ok it h
  obtain ⟨t, j, m, h1, h2, h3, -, -, -, -⟩ := matchLine_some _ _ _ _ hm
  rw [he]
  simp only
  refine ⟨h3, ?_, ?_, it.m_text.takeWhile isSpaceChar, t.dropWhile notSpaceChar, ?_, ?_, ?_, ?_⟩
  · intro c hc
    rw [h2] at hc
    simpa [notSpaceChar] using List.mem_takeWhile_imp hc
  · rw [h1, h2]; rfl
  · rw [h2, List.takeWhile_append_dropWhile, ← h1, List.takeWhile_append_dropWhile]
  · intro c hc
    exact List.mem_takeWhile_imp hc
  · intro hc
    have := List.mem_takeWhile_imp hc
    revert this; decide
  · intro c hc
    have := List.head?_dropWhile_not notSpaceChar t
    rw [hc] at this
    simpa [notSpaceChar] using this

theorem C2_key_is_longest_run_witness :
    (iterator.mk "@key-with-@ has a value".toList [] [] false).increment.m_ok = true ∧
      (iterator.mk "@key-with-@ has a value".toList [] [] false).increment.m_key
        = "key-with-@".toList ∧
      ((iterator.mk "@key-with-@ has a value".toList [] [] false).increment.m_key ≠ [] ∧
        (∀ c ∈ (iterator.mk "@key-with-@ has a value".toList [] [] false).increment.m_key,
          isSpaceChar c = false) ∧
        (iterator.mk "@key-with-@ has a value".toList [] [] false).increment.m_key =
          (((iterator.mk "@key-with-@ has a value".toList [] [] false).m_text.dropWhile
            isSpaceChar).drop 1).takeWhile notSpaceChar ∧
        ∃ ws rest, (iterator.mk "@key-with-@ has a value".toList [] [] false).m_text =
            ws ++ '@' ::
              ((iterator.mk "@key-with-@ has a value".toList [] [] false).increment.m_key
                ++ rest) ∧
          (∀ c ∈ ws, isSpaceChar c = true) ∧ '@' ∉ ws ∧
          (∀ c, rest.head? = some c → isSpaceChar c = true)) :=
  ⟨by decide, by decide,
    C2_key_is_longest_run (iterator.mk "@key-with-@ has a value".toList [] [] false)
      (by decide)⟩

theorem trimBack_eq (V : List Char) : trimBack V = V.rdropWhile isSpaceChar := rfl

theorem trimBack_last (V : List Char) (b : Char) (h : (trimBack V).getLast? = some b) :
    isSpaceChar b = false := by
  rw [trimBack_eq] at h
  have hne : V.rdropWhile isSpaceChar ≠ [] := by
    intro hnil; rw [hnil] at h; cases h
  have h1 := List.rdropWhile_last_not isSpaceChar V hne
  rw [List.getLast?_eq_getLast _ hne] at h
  simp only [Option.some.injEq] at h
  rw [h] at h1
  simpa using h1

theorem trimBack_all_space (V : List Char) (h : ∀ c ∈ V, isSpaceChar c = true) :
    trimBack V = [] := by
  rw [trimBack_eq, List.rdropWhile_eq_nil_iff]
  exact h

theorem trimBack_head (a : Char) (V : List Char) (ha : isSpaceChar a = false) :
    (trimBack (a :: V)).head? = some a := by
  have hp : trimBack (a :: V) <+: a :: V := by
    rw [trimBack_eq]; exact List.rdropWhile_prefix _ _
  have hne : trimBack (a :: V) ≠ [] := by
    rw [trimBack_eq]
    intro hnil
    rw [List.rdropWhile_eq_nil_iff] at hnil
    have := hnil a (List.mem_cons_self _ _)
    rw [ha] at this
    cases this
  obtain ⟨t, ht⟩ := hp
  cases hx : trimBack (a :: V) with
  | nil => exact absurd hx hne
  | cons x xs =>
    rw [hx] at ht
    simp only [List.cons_append, List.cons.injEq] at ht
    simp [ht.1]

theorem trimBack_mem (V : List Char) (c : Char) (h : c ∈ trimBack V) : c ∈ V := by
  have hp : trimBack V <+: V := by
    rw [trimBack_eq]; exact List.rdropWhile_prefix _ _
  exact hp.subset h

theorem drop_le_takeWhile (p : Char → Bool) (l : List Char) (j : Nat)
    (hj : j ≤ (l.takeWhile p).length) :
    l.drop j = (l.takeWhile p).drop j ++ l.dropWhile p := by
  conv_lhs => rw [← List.takeWhile_append_dropWhile p l]
  exact List.drop_append_of_le_length hj

/-- The raw value of the first successful attempt either is whitespace only or
starts with a character that is not whitespace. -/
theorem lineTail_value_shape (R : List Char) (j : Nat) (V : List Char) (m : Nat)
    (hj : j ≤ (R.takeWhile isSpaceChar).length)
    (h : lineTail R j = some (V, m))
    (hfirst : ∀ i, j < i → i ≤ (R.takeWhile isSpaceChar).length → lineTail R i = none) :
    (∀ c ∈ V, isSpaceChar c = true) ∨ (∀ c, V.head? = some c → isSpaceChar c = false) := by
  obtain ⟨hV, tl, htl, -⟩ := lineTail_some _ _ _ _ h
  rcases Nat.lt_or_ge j (R.takeWhile isSpaceChar).length with hlt | hge
  · left
    have hdrop := drop_le_takeWhile isSpaceChar R j hj
    have hnone := hfirst _ hlt le_rfl
    by_cases hall : ∀ c ∈ (R.takeWhile isSpaceChar).drop j, notLineTerminator c = true
    · exfalso
      rw [hdrop, List.dropWhile_append_of_pos hall] at htl
      unfold lineTail at hnone
      rw [drop_takeWhile_length, htl] at hnone
      cases hnone
    · intro c hc
      rw [hV, hdrop, List.takeWhile_append] at hc
      have hlen : ¬ (List.takeWhile notLineTerminator
          ((R.takeWhile isSpaceChar).drop j)).length = ((R.takeWhile isSpaceChar).drop j).length := by
        intro hlen
        apply hall
        intro c hc
        have heq : List.takeWhile notLineTerminator ((R.takeWhile isSpaceChar).drop j)
            = (R.takeWhile isSpaceChar).drop j :=
          List.IsPrefix.eq_of_length ( List.takeWhile_prefix _) hlen
        rw [← heq] at hc
        exact List.mem_takeWhile_imp hc
      rw [if_neg hlen] at hc
      have h1 : c ∈ (R.takeWhile isSpaceChar).drop j := List.IsPrefix.subset ( List.takeWhile_prefix _) hc
      have h2 : c ∈ R.takeWhile isSpaceChar := List.mem_of_mem_drop h1
      exact List.mem_takeWhile_imp h2
  · right
    have hjeq : j = (R.takeWhile isSpaceChar).length := by omega
    intro c hc
    rw [hV, hjeq, drop_takeWhile_length] at hc
    have hnot := List.head?_dropWhile_not isSpaceChar R
    cases hd : R.dropWhile isSpaceChar with
    | nil => rw [hd] at hc; cases hc
    | cons x xs =>
      rw [hd] at hc hnot
      by_cases hx : notLineTerminator x = true
      · simp only [List.takeWhile_cons, hx, if_true, List.head?_cons, Option.some.injEq] at hc
        subst hc
        simpa using hnot
      · simp [List.takeWhile_cons, hx] at hc

/-- C3: the value of a valid entry is empty, or its first and its last
character both are not whitespace. -/
theorem C3_value_trimmed_both_sides (it : iterator) (h : it.increment.m_ok = true) :
    it.increment.m_value = [] ∨
      ∃ a b, it.increment.m_value.head? = some a ∧ it.increment.m_value.getLast? = some b ∧
        isSpaceChar a = false ∧ isSpaceChar b = false := by
  obtain ⟨K, V, n, hm, he⟩ := increment_ok it h
  obtain ⟨t, j, m, -, -, -, hj, hl, hfirst, -⟩ := matchLine_some _ _ _ _ hm
  rw [he]
  simp only
  rcases lineTail_value_shape _ _ _ _ hj hl hfirst with hall | hhead
  · left; exact trimBack_all_space V hall
  · cases V with
    | nil => left; rfl
    | cons a V' =>
      right
      have ha : isSpaceChar a = false := hhead a rfl
      have hh := trimBack_head a V' ha
      have hne : trimBack (a :: V') ≠ [] := by
        intro hnil; rw [hnil] at hh; cases hh
      refine ⟨a, (trimBack (a :: V')).getLast hne, hh, List.getLast?_eq_getLast _ hne, ha, ?_⟩
      exact trimBack_last _ _ (List.getLast?_eq_getLast _ hne)

theorem C3_value_trimmed_both_sides_witness :
    (iterator.mk "@key  \t  Some \tText  \t  ".toList [] [] false).increment.m_ok = true ∧
      ((iterator.mk "@key  \t  Some \tText  \t  ".toList [] [] false).increment.m_value = [] ∨
        ∃ a b,
          (iterator.mk "@key  \t  Some \tText  \t  ".toList [] [] false).increment.m_value.head?
            = some a ∧
          (iterator.mk "@key  \t  Some \tText  \t  ".toList [] [] false).increment.m_value.getLast?
            = some b ∧
          isSpaceChar a = false ∧ isSpaceChar b = false) :=
  ⟨by decide,
    C3_value_trimmed_both_sides (iterator.mk "@key  \t  Some \tText  \t  ".toList [] [] false)
      (by decide)⟩

/-- C5: the value of a valid entry contains neither `\n` nor `\r`. -/
theorem C5_value_has_no_line_terminator (it : iterator) (h : it.increment.m_ok = true) :
    ∀ c ∈ it.increment.m_value, c ≠ '\n' ∧ c ≠ '\r' := by
  obtain ⟨K, V, n, hm, he⟩ := increment_ok it h
  obtain ⟨t, j, m, -, -, -, -, hl, -, -⟩ := matchLine_some _ _ _ _ hm
  obtain ⟨hV, -⟩ := lineTail_some _ _ _ _ hl
  rw [he]
  intro c hc
  have h1 : c ∈ V := trimBack_mem V c hc
  rw [hV] at h1
  have h2 := List.mem_takeWhile_imp h1
  constructor
  · intro hcn; subst hcn; revert h2; decide
  · intro hcr; subst hcr; revert h2; decide

theorem C5_value_has_no_line_terminator_witness :
    (iterator.mk "@a b \r\n@c d".toList [] [] false).increment.m_ok = true ∧
      ∀ c ∈ (iterator.mk "@a b \r\n@c d".toList [] [] false).increment.m_value,
        c ≠ '\n' ∧ c ≠ '\r' :=
  ⟨by decide,
    C5_value_has_no_line_terminator (iterator.mk "@a b \r\n@c d".toList [] [] false)
      (by decide)⟩

theorem matchLine_none_of_no_at (text : List Char) (h : '@' ∉ text) : matchLine text = none := by
  cases hm : matchLine text with
  | none => rfl
  | some b =>
    obtain ⟨K, V, n⟩ := b
    obtain ⟨t, j, m, h1, -⟩ := matchLine_some _ _ _ _ hm
    exfalso
    apply h
    have hs : '@' :: t <:+ text := by
      rw [← h1]; exact List.dropWhile_suffix _
    exact hs.subset (List.mem_cons_self _ _)

theorem ctor_eq (text : List Char) :
    iterator.ctor text =
      match matchLine text with
      | none => sentinel
      | some (K, V, n) => ⟨text.drop n, K, trimBack V, true⟩ := by
  unfold iterator.ctor
  rw [increment_eq]

/-- C6: on a text without any `@` (the empty text included) `begin()`
dereferences to the sentinel `("", "", false)` and compares equal to `end()`. -/
theorem C6_no_at_gives_sentinel (text : List Char) (h : '@' ∉ text) :
    (splitDoxyStyleComments text).begin.deref = ([], [], false) ∧
      (splitDoxyStyleComments text).begin.equals (splitDoxyStyleComments text).end_ = true := by
  have hb : (splitDoxyStyleComments text).begin = sentinel := by
    unfold KeyValuePairsParser.begin splitDoxyStyleComments
    rw [ctor_eq, matchLine_none_of_no_at text h]
  rw [hb, end_eq_sentinel]
  exact ⟨rfl, rfl⟩

theorem C6_no_at_gives_sentinel_witness :
    '@' ∉ "no annotation here\n".toList ∧
      ((splitDoxyStyleComments "no annotation here\n".toList).begin.deref = ([], [], false) ∧
        (splitDoxyStyleComments "no annotation here\n".toList).begin.equals
          (splitDoxyStyleComments "no annotation here\n".toList).end_ = true) :=
  ⟨by decide, C6_no_at_gives_sentinel "no annotation here\n".toList (by decide)⟩

/-- C7: when the first character after optional leading whitespace is `@` and
that `@` is followed by a whitespace character or by the end of the text, the
first entry is the sentinel `("", "", false)`. -/
theorem C7_empty_key_gives_sentinel (ws t : List Char)
    (hws : ∀ c ∈ ws, isSpaceChar c = true)
    (ht : ∀ c, t.head? = some c → isSpaceChar c = true) :
    (splitDoxyStyleComments (ws ++ '@' :: t)).begin.deref = ([], [], false) := by
  have hm : matchLine (ws ++ '@' :: t) = none := by
    unfold matchLine
    have hat : isSpaceChar '@' = false := by decide
    rw [List.dropWhile_append_of_pos hws]
    simp only [List.dropWhile_cons, hat, Bool.false_eq_true, if_false, if_true]
    cases t with
    | nil => rfl
    | cons d r =>
      have hd : notSpaceChar d = false := by
        simp [notSpaceChar, ht d rfl]
      simp [hd]
  unfold KeyValuePairsParser.begin splitDoxyStyleComments
  rw [ctor_eq, hm]
  rfl

theorem C7_empty_key_gives_sentinel_witness :
    (∀ c ∈ ([] : List Char), isSpaceChar c = true) ∧
      (∀ c, " Some Value".toList.head? = some c → isSpaceChar c = true) ∧
      (splitDoxyStyleComments ([] ++ '@' :: " Some Value".toList)).begin.deref
        = ([], [], false) :=
  ⟨by decide, by decide,
    C7_empty_key_gives_sentinel [] " Some Value".toList (by decide) (by decide)⟩

theorem matchLine_pos (text K V : List Char) (n : Nat) (h : matchLine text = some (K, V, n)) :
    0 < n ∧ text ≠ [] := by
  obtain ⟨t, j, m, h1, -, -, -, -, -, hn⟩ := matchLine_some _ _ _ _ h
  refine ⟨by omega, ?_⟩
  intro hnil
  rw [hnil] at h1
  cases h1

theorem increment_text_lt (it : iterator) (h : it.increment.m_ok = true) :
    it.increment.m_text.length < it.m_text.length := by
  obtain ⟨K, V, n, hm, he⟩ := increment_ok it h
  obtain ⟨hn, hne⟩ := matchLine_pos _ _ _ _ hm
  rw [he]
  simp only [List.length_drop]
  have : 0 < it.m_text.length := List.length_pos.mpr hne
  omega

theorem increment_sentinel : sentinel.increment = sentinel := rfl

theorem iterate_sentinel (m : Nat) : (iterator.increment^[m]) sentinel = sentinel := by
  induction m with
  | zero => rfl
  | succ m ih => rw [Function.iterate_succ_apply, increment_sentinel, ih]

/-- Every run of increments reaches the sentinel, after at most one step per
character of the remaining text plus one. -/
theorem reaches_sentinel (L : Nat) (it : iterator) (hL : it.m_text.length ≤ L) :
    ∃ n, n ≤ L ∧
      (∀ i, i < n → ((iterator.increment^[i + 1]) it).m_ok = true) ∧
      (iterator.increment^[n + 1]) it = sentinel := by
  induction L generalizing it with
  | zero =>
    refine ⟨0, le_rfl, fun i hi => by omega, ?_⟩
    have hnil : it.m_text = [] := List.length_eq_zero.mp (by omega)
    simp only [Function.iterate_succ_apply, Function.iterate_zero, id]
    rw [increment_eq, hnil, matchLine_nil]
  | succ L ih =>
    cases hok : it.increment.m_ok with
    | false =>
      refine ⟨0, by omega, fun i hi => by omega, ?_⟩
      exact increment_not_ok it hok
    | true =>
      have hlt := increment_text_lt it hok
      obtain ⟨n, hn, h1, h2⟩ := ih it.increment (by omega)
      refine ⟨n + 1, by omega, ?_, ?_⟩
      · intro i hi
        cases i with
        | zero => exact hok
        | succ i =>
          rw [Function.iterate_succ_apply]
          exact h1 i (by omega)
      · rw [Function.iterate_succ_apply]
        exact h2

/-- C8: from `begin()` a finite number of increments, all giving valid entries,
leads to the state whose entry is `("", "", false)`, which is `end()` and
compares equal to it, and every further increment leaves that state unchanged;
for `"@greeting Hello World"` this is the second entry. -/
theorem C8_end_of_sequence :
    (∀ text : List Char, ∃ n, n ≤ text.length ∧
      (∀ i, i < n → ((iterator.increment^[i]) (splitDoxyStyleComments text).begin).m_ok = true) ∧
      ((iterator.increment^[n]) (splitDoxyStyleComments text).begin).deref = ([], [], false) ∧
      (iterator.increment^[n]) (splitDoxyStyleComments text).begin
        = (splitDoxyStyleComments text).end_ ∧
      ((iterator.increment^[n]) (splitDoxyStyleComments text).begin).equals
        (splitDoxyStyleComments text).end_ = true ∧
      ∀ m, n ≤ m → (iterator.increment^[m]) (splitDoxyStyleComments text).begin
        = (iterator.increment^[n]) (splitDoxyStyleComments text).begin) ∧
    (∀ it : iterator, it.deref = ([], [], false) → it.m_text = [] → it.increment = it) ∧
    (∀ p : KeyValuePairsParser, p.end_.increment = p.end_) ∧
    (splitDoxyStyleComments "@greeting Hello World".toList).begin.deref
      = ("greeting".toList, "Hello World".toList, true) ∧
    (splitDoxyStyleComments "@greeting Hello World".toList).begin.increment.deref
      = ([], [], false) ∧
    (splitDoxyStyleComments "@greeting Hello World".toList).begin.increment.equals
      (splitDoxyStyleComments "@greeting Hello World".toList).end_ = true := by
  refine ⟨?_, ?_, fun _ => rfl, by decide, by decide, by decide⟩
  · intro text
    obtain ⟨n, hn, h1, h2⟩ := reaches_sentinel text.length ⟨text, [], [], false⟩ le_rfl
    have hb : ∀ i, (iterator.increment^[i]) (splitDoxyStyleComments text).begin
        = (iterator.increment^[i + 1]) ⟨text, [], [], false⟩ := by
      intro i
      rw [Function.iterate_succ_apply]
      rfl
    refine ⟨n, hn, ?_, ?_, ?_, ?_, ?_⟩
    · intro i hi; rw [hb]; exact h1 i hi
    · rw [hb, h2]; rfl
    · rw [hb, h2]; rfl
    · rw [hb, h2]; rfl
    · intro m hm
      obtain ⟨d, rfl⟩ := Nat.exists_eq_add_of_le hm
      rw [Nat.add_comm, Function.iterate_add_apply, hb n, h2, iterate_sentinel]
  · intro it h1 h2
    obtain ⟨text, key, value, ok⟩ := it
    simp only [iterator.deref, Prod.mk.injEq] at h1
    simp only at h2
    obtain ⟨hk, hv, ho⟩ := h1
    subst hk hv ho h2
    rfl

theorem takeWhile_append_stop (p : Char → Bool) (A B : List Char)
    (hA : ∀ c ∈ A, p c = true) (hB : ∀ c, B.head? = some c → p c = false) :
    (A ++ B).takeWhile p = A ∧ (A ++ B).dropWhile p = B := by
  rw [List.takeWhile_append_of_pos hA, List.dropWhile_append_of_pos hA]
  cases B with
  | nil => simp
  | cons b B' =>
    have hb : p b = false := hB b rfl
    simp [List.takeWhile_cons, List.dropWhile_cons, hb]

theorem termLen_some_head (T : List Char) (tl : Nat) (h : termLen T = some tl) :
    ∀ c, T.head? = some c → notLineTerminator c = false := by
  intro c hc
  cases T with
  | nil => cases hc
  | cons x xs =>
    simp only [List.head?_cons, Option.some.injEq] at hc
    subst hc
    by_cases hx : notLineTerminator x = true
    · rw [termLen_of_notLineTerminator x xs hx] at h; cases h
    · simpa using hx

theorem isSpaceChar_of_isBlank (c : Char) (h : isBlank c = true) : isSpaceChar c = true := by
  simp only [isBlank, Bool.or_eq_true, beq_iff_eq] at h
  rcases h with h | h <;> subst h <;> decide

theorem notLineTerminator_of_isBlank (c : Char) (h : isBlank c = true) :
    notLineTerminator c = true := by
  simp only [isBlank, Bool.or_eq_true, beq_iff_eq] at h
  rcases h with h | h <;> subst h <;> decide

/-- The line match on a text of the shape whitespace, `@`, key, separator,
raw value, terminator or end. -/
theorem matchLine_struct (ws K sep V T : List Char) (tl : Nat)
    (hws : ∀ c ∈ ws, isSpaceChar c = true)
    (hK0 : K ≠ []) (hK : ∀ c ∈ K, notSpaceChar c = true)
    (hsep0 : sep ≠ []) (hsep : ∀ c ∈ sep, isSpaceChar c = true)
    (hV0 : ∀ c, (V ++ T).head? = some c → isSpaceChar c = false)
    (hV : ∀ c ∈ V, notLineTerminator c = true)
    (hT : termLen T = some tl) :
    matchLine (ws ++ '@' :: (K ++ (sep ++ (V ++ T)))) =
      some (K, V, ws.length + 1 + K.length + (sep.length + V.length + tl)) := by
  have hat : isSpaceChar '@' = false := by decide
  have h1 := takeWhile_append_stop isSpaceChar ws ('@' :: (K ++ (sep ++ (V ++ T)))) hws
    (by intro c hc; simp only [List.head?_cons, Option.some.injEq] at hc; subst hc; exact hat)
  have hsephead : ∀ c, (sep ++ (V ++ T)).head? = some c → notSpaceChar c = false := by
    intro c hc
    cases sep with
    | nil => exact absurd rfl hsep0
    | cons s sep' =>
      simp only [List.cons_append, List.head?_cons, Option.some.injEq] at hc
      subst hc
      simp [notSpaceChar, hsep s (List.mem_cons_self _ _)]
  cases K with
  | nil => exact absurd rfl hK0
  | cons d K' =>
    have hd : notSpaceChar d = true := hK d (List.mem_cons_self _ _)
    have h2 := takeWhile_append_stop notSpaceChar K' (sep ++ (V ++ T))
      (fun c hc => hK c (List.mem_cons_of_mem _ hc)) hsephead
    have h3 := takeWhile_append_stop isSpaceChar sep (V ++ T) hsep hV0
    have h4 := takeWhile_append_stop notLineTerminator V T hV (termLen_some_head T tl hT)
    have h5 : lineTail (sep ++ (V ++ T)) sep.length = some (V, sep.length + V.length + tl) := by
      unfold lineTail
      rw [List.drop_left, h4.1, h4.2, hT]
    unfold matchLine
    rw [h1.1, h1.2]
    simp only [List.cons_append, if_true, hd, h2.1, h2.2, h3.1]
    rw [tryDown_top _ _ _ h5]
    simp only [List.length_cons]
    congr 3
    omega

theorem trimBack_append_blank (v pad : List Char)
    (hlast : ∀ c, v.getLast? = some c → isSpaceChar c = false)
    (hpad : ∀ c ∈ pad, isSpaceChar c = true) : trimBack (v ++ pad) = v := by
  unfold trimBack
  rw [List.reverse_append]
  have hp : ∀ c ∈ pad.reverse, isSpaceChar c = true := by
    intro c hc; exact hpad c (List.mem_reverse.mp hc)
  have hv : ∀ c, v.reverse.head? = some c → isSpaceChar c = false := by
    intro c hc; rw [List.head?_reverse] at hc; exact hlast c hc
  have := takeWhile_append_stop isSpaceChar pad.reverse v.reverse hp hv
  rw [List.dropWhile_append_of_pos hp]
  cases hr : v.reverse with
  | nil =>
    have : v = [] := by simpa using hr
    simp [this]
  | cons x xs =>
    have hx : isSpaceChar x = false := hv x (by rw [hr]; rfl)
    rw [List.dropWhile_cons, hx]
    simp only [Bool.false_eq_true, if_false]
    rw [← hr, List.reverse_reverse]

/-- The facts a well-formed line carries. -/
theorem Line.wellFormed_facts (l : Line) (h : l.wellFormed = true) :
    l.k ≠ [] ∧ (∀ c ∈ l.k, notSpaceChar c = true) ∧
    l.sep ≠ [] ∧ (∀ c ∈ l.sep, isBlank c = true) ∧
    l.v ≠ [] ∧ (∀ c ∈ l.v, notLineTerminator c = true) ∧
    (∀ c, l.v.head? = some c → isSpaceChar c = false) ∧
    (∀ c, l.v.getLast? = some c → isSpaceChar c = false) ∧
    (∀ c ∈ l.pad, isBlank c = true) ∧
    (l.term = ['\n'] ∨ l.term = ['\r', '\n']) := by
  simp only [Line.wellFormed, Bool.and_eq_true, Bool.not_eq_true', List.isEmpty_eq_false,
    List.all_eq_true, Bool.or_eq_true, beq_iff_eq] at h
  obtain ⟨⟨⟨⟨⟨⟨hk0, hk⟩, hs0, hs⟩, hv0, hv⟩, hh, hl⟩, hp⟩, ht⟩ := h
  refine ⟨hk0, hk, hs0, hs, hv0, hv, ?_, ?_, hp, ht⟩
  · intro c hc
    rw [hc] at hh
    simpa [notSpaceChar] using hh
  · intro c hc
    rw [hc] at hl
    simpa [notSpaceChar] using hl

/-- One increment on a well-formed line followed by the end of the text or by
its terminator and further text. -/
theorem increment_line (l : Line) (hl : l.wellFormed = true) (T T' a b : List Char) (o : Bool)
    (hT : (T = [] ∧ T' = []) ∨ T = l.term ++ T') :
    (iterator.mk (l.text ++ T) a b o).increment = ⟨T', l.k, l.v, true⟩ := by
  obtain ⟨hk0, hk, hs0, hs, hv0, hv, hh, hlast, hp, ht⟩ := l.wellFormed_facts hl
  have hterm : ∃ tl, termLen T = some tl ∧ T.drop tl = T' := by
    rcases hT with ⟨h1, h2⟩ | h1
    · subst h1 h2; exact ⟨0, rfl, rfl⟩
    · rcases ht with h | h
      · rw [h1, h]; exact ⟨1, rfl, rfl⟩
      · rw [h1, h]; exact ⟨2, rfl, rfl⟩
  obtain ⟨tl, htl, hdrop⟩ := hterm
  have hVhead : ∀ c, ((l.v ++ l.pad) ++ T).head? = some c → isSpaceChar c = false := by
    intro c hc
    cases hvv : l.v with
    | nil => exact absurd hvv hv0
    | cons x xs =>
      rw [hvv] at hc
      simp only [List.cons_append, List.head?_cons, Option.some.injEq] at hc
      subst hc
      exact hh x (by rw [hvv]; rfl)
  have hVall : ∀ c ∈ l.v ++ l.pad, notLineTerminator c = true := by
    intro c hc
    rcases List.mem_append.mp hc with h | h
    · exact hv c h
    · exact notLineTerminator_of_isBlank c (hp c h)
  have hm := matchLine_struct [] l.k l.sep (l.v ++ l.pad) T tl (by simp) hk0 hk hs0
    (fun c hc => isSpaceChar_of_isBlank c (hs c hc)) hVhead hVall htl
  have htext : l.text ++ T = [] ++ '@' :: (l.k ++ (l.sep ++ ((l.v ++ l.pad) ++ T))) := by
    simp [Line.text]
  rw [increment_eq]
  simp only
  rw [htext, hm]
  simp only [List.nil_append, List.length_nil, Nat.zero_add]
  rw [trimBack_append_blank l.v l.pad hlast (fun c hc => isSpaceChar_of_isBlank c (hp c hc))]
  congr 1
  have hlen : 1 + l.k.length + (l.sep.length + (l.v ++ l.pad).length + tl)
      = ('@' :: (l.k ++ (l.sep ++ (l.v ++ l.pad)))).length + tl := by
    simp only [List.length_cons, List.length_append]; omega
  have hsplit : '@' :: (l.k ++ (l.sep ++ ((l.v ++ l.pad) ++ T)))
      = ('@' :: (l.k ++ (l.sep ++ (l.v ++ l.pad)))) ++ T := by simp
  rw [hlen, hsplit, ← List.drop_drop, List.drop_left, hdrop]

/-- Iterating over well-formed lines, from any iterator placed on their text. -/
theorem iterate_lines (ls : List Line) (hne : ls ≠ [])
    (hwf : ∀ l ∈ ls, l.wellFormed = true) (a b : List Char) (o : Bool) :
    (∀ i l, ls[i]? = some l →
      ((iterator.increment^[i + 1]) ⟨renderLines ls, a, b, o⟩).deref = (l.k, l.v, true)) ∧
    (iterator.increment^[ls.length + 1]) ⟨renderLines ls, a, b, o⟩ = sentinel := by
  induction ls generalizing a b o with
  | nil => exact absurd rfl hne
  | cons l ls ih =>
    have hl : l.wellFormed = true := hwf l (List.mem_cons_self _ _)
    cases ls with
    | nil =>
      have h1 : (iterator.mk (renderLines [l]) a b o).increment = ⟨[], l.k, l.v, true⟩ := by
        have := increment_line l hl [] [] a b o (Or.inl ⟨rfl, rfl⟩)
        rw [List.append_nil] at this
        exact this
      constructor
      · intro i l' hi
        cases i with
        | zero =>
          simp only [List.getElem?_cons_zero, Option.some.injEq] at hi
          subst hi
          simp only [Nat.zero_add, Function.iterate_one]
          rw [h1]; rfl
        | succ i => simp at hi
      · simp only [List.length_singleton, Function.iterate_succ_apply, Function.iterate_zero, id]
        rw [h1]; rfl
    | cons l' ls' =>
      have h1 : (iterator.mk (renderLines (l :: l' :: ls')) a b o).increment
          = ⟨renderLines (l' :: ls'), l.k, l.v, true⟩ :=
        increment_line l hl _ _ a b o (Or.inr rfl)
      obtain ⟨ih1, ih2⟩ := ih (by simp) (fun x hx => hwf x (List.mem_cons_of_mem _ hx))
        l.k l.v true
      constructor
      · intro i x hi
        cases i with
        | zero =>
          simp only [List.getElem?_cons_zero, Option.some.injEq] at hi
          subst hi
          simp only [Nat.zero_add, Function.iterate_one]
          rw [h1]; rfl
        | succ i =>
          rw [List.getElem?_cons_succ] at hi
          rw [Function.iterate_succ_apply, h1]
          exact ih1 i x hi
      · rw [List.length_cons, Function.iterate_succ_apply, h1]
        exact ih2

theorem iterate_begin (text : List Char) (i : Nat) :
    (iterator.increment^[i]) (splitDoxyStyleComments text).begin
      = (iterator.increment^[i + 1]) ⟨text, [], [], false⟩ := by
  rw [Function.iterate_succ_apply]
  rfl

/-- C1: on the text of one or more well-formed annotation lines joined by
`\n` or `\r\n`, iterating from `begin()` gives the entries
`(k_1, v_1, true)`, ..., `(k_n, v_n, true)` in this order, and the next
increment gives the end sentinel `("", "", false)`, equal to `end()`. -/
theorem C1_round_trip (ls : List Line) (hne : ls ≠ [])
    (hwf : ∀ l ∈ ls, l.wellFormed = true) :
    (∀ i l, ls[i]? = some l →
      ((iterator.increment^[i]) (splitDoxyStyleComments (renderLines ls)).begin).deref
        = (l.k, l.v, true)) ∧
    ((iterator.increment^[ls.length]) (splitDoxyStyleComments (renderLines ls)).begin).deref
      = ([], [], false) ∧
    (iterator.increment^[ls.length]) (splitDoxyStyleComments (renderLines ls)).begin
      = (splitDoxyStyleComments (renderLines ls)).end_ := by
  obtain ⟨h1, h2⟩ := iterate_lines ls hne hwf [] [] false
  refine ⟨?_, ?_, ?_⟩
  · intro i l hi
    rw [iterate_begin]
    exact h1 i l hi
  · rw [iterate_begin, h2]; rfl
  · rw [iterate_begin, h2]; rfl

theorem C1_round_trip_witness :
    exampleLines ≠ [] ∧ (∀ l ∈ exampleLines, l.wellFormed = true) ∧
    renderLines exampleLines =
      ("@say-greeting Hello World\n@say-chat     Some more text with @ signs!  \r\n" ++
        "@say-farewell Good bye.").toList ∧
    ((∀ i l, exampleLines[i]? = some l →
      ((iterator.increment^[i]) (splitDoxyStyleComments (renderLines exampleLines)).begin).deref
        = (l.k, l.v, true)) ∧
    ((iterator.increment^[exampleLines.length])
        (splitDoxyStyleComments (renderLines exampleLines)).begin).deref
      = ([], [], false) ∧
    (iterator.increment^[exampleLines.length])
        (splitDoxyStyleComments (renderLines exampleLines)).begin
      = (splitDoxyStyleComments (renderLines exampleLines)).end_) :=
  ⟨by decide, by decide, by decide, C1_round_trip exampleLines (by decide) (by decide)⟩

/-- C9, the claim refuted: after `"@greeting Hello World"` the entry obtained by
advancing past the last annotation does not have `ok = true`. -/
theorem C9_sentinel_ok_true_counterexample :
    ¬ ((splitDoxyStyleComments "@greeting Hello World".toList).begin.increment.deref
        = ([], [], true) ∧
      (splitDoxyStyleComments "@greeting Hello World".toList).begin.increment.equals
        (splitDoxyStyleComments "@greeting Hello World".toList).end_ = true) := by
  decide

/-- C9 as amended: on the text of one or more well-formed annotation lines the
entry obtained by advancing past the last annotation has an empty key, an
empty value and `ok = false`, and the iterator then compares equal to
`end()`. -/
theorem C9_sentinel_after_last_line (ls : List Line) (hne : ls ≠ [])
    (hwf : ∀ l ∈ ls, l.wellFormed = true) :
    ((iterator.increment^[ls.length]) (splitDoxyStyleComments (renderLines ls)).begin).deref
      = ([], [], false) ∧
    ((iterator.increment^[ls.length]) (splitDoxyStyleComments (renderLines ls)).begin).equals
      (splitDoxyStyleComments (renderLines ls)).end_ = true := by
  obtain ⟨-, h2⟩ := iterate_lines ls hne hwf [] [] false
  constructor
  · rw [iterate_begin, h2]; rfl
  · rw [iterate_begin, h2]; rfl

theorem C9_sentinel_after_last_line_witness :
    exampleLines ≠ [] ∧ (∀ l ∈ exampleLines, l.wellFormed = true) ∧
    (((iterator.increment^[exampleLines.length])
        (splitDoxyStyleComments (renderLines exampleLines)).begin).deref
      = ([], [], false) ∧
    ((iterator.increment^[exampleLines.length])
        (splitDoxyStyleComments (renderLines exampleLines)).begin).equals
      (splitDoxyStyleComments (renderLines exampleLines)).end_ = true) :=
  ⟨by decide, by decide, C9_sentinel_after_last_line exampleLines (by decide) (by decide)⟩

/-- C10, the claim refuted: the first entry of
`"@key  \t  Some \tText  \t  "` is not `("key", "Some  \tText", true)` with two
spaces before the tab. -/
theorem C10_value_two_spaces_counterexample :
    (splitDoxyStyleComments "@key  \t  Some \tText  \t  ".toList).begin.deref
      ≠ ("key".toList, "Some  \tText".toList, true) := by
  decide

/-- C10 as amended: the first entry of `"@key  \t  Some \tText  \t  "` is
`("key", "Some \tText", true)`, the value being `Some`, one space, a tab and
`Text`, as it stands in the text. -/
theorem C10_value_space_trimmed :
    (splitDoxyStyleComments "@key  \t  Some \tText  \t  ".toList).begin.deref
      = ("key".toList, "Some \tText".toList, true) := by
  decide

/-- C4, the code at the failing inputs: a key followed at once by a line
terminator takes the text of the next line as its value, and an annotation on
that next line is not produced as an entry of its own. -/
theorem C4_value_taken_from_next_line :
    (splitDoxyStyleComments "@x-key\nfoo".toList).begin.deref
      = ("x-key".toList, "foo".toList, true) ∧
    (splitDoxyStyleComments "@a\r\n@b c".toList).begin.deref
      = ("a".toList, "@b c".toList, true) ∧
    (splitDoxyStyleComments "@a\r\n@b c".toList).begin.increment.deref = ([], [], false) ∧
    (splitDoxyStyleComments "@x-key".toList).begin.deref = ("x-key".toList, [], true) := by
  decide

theorem matchLine_ws (w t : List Char) (hw : ∀ c ∈ w, isSpaceChar c = true) :
    matchLine (w ++ t) =
      match matchLine t with
      | none => none
      | some (K, V, n) => some (K, V, w.length + n) := by
  unfold matchLine
  rw [List.dropWhile_append_of_pos hw, List.takeWhile_append_of_pos hw, List.length_append]
  cases t.dropWhile isSpaceChar with
  | nil => rfl
  | cons a t' =>
    by_cases ha : a = '@'
    · simp only [ha, if_true]
      cases t' with
      | nil => rfl
      | cons d r =>
        by_cases hd : notSpaceChar d = true
        · simp only [hd, if_true]
          cases tryDown (lineTail (r.dropWhile notSpaceChar))
              ((r.dropWhile notSpaceChar).takeWhile isSpaceChar).length with
          | none => rfl
          | some b =>
            obtain ⟨V, n⟩ := b
            simp only [Option.some.injEq, Prod.mk.injEq, true_and]
            omega
        · simp [hd]
    · simp [ha]

theorem termLen_take (D : List Char) (tl : Nat) (h : termLen D = some tl) :
    (∀ c ∈ D.take tl, isSpaceChar c = true) ∧ (D.take tl).length = tl := by
  cases D with
  | nil =>
    simp only [termLen, Option.some.injEq] at h
    subst h
    simp
  | cons c cs =>
    by_cases h1 : c = '\r'
    · subst h1
      cases cs with
      | nil => simp [termLen] at h
      | cons d ds =>
        by_cases h2 : d = '\n'
        · subst h2
          simp only [termLen, if_true, Option.some.injEq] at h
          subst h
          refine ⟨?_, rfl⟩
          intro c hc
          simp only [List.take_succ_cons, List.take_zero, List.mem_cons, List.mem_nil_iff,
            or_false] at hc
          rcases hc with hc | hc <;> subst hc <;> decide
        · simp [termLen, h2] at h
    · by_cases h2 : c = '\n'
      · subst h2
        have h3 : ('\n' : Char) ≠ '\r' := by decide
        simp only [termLen, h3, if_false, if_true, Option.some.injEq] at h
        subst h
        refine ⟨?_, rfl⟩
        intro c hc
        simp only [List.take_succ_cons, List.take_zero, List.mem_cons, List.mem_nil_iff,
          or_false] at hc
        subst hc; decide
      · simp [termLen, h1, h2] at h

/-- Every successful line match splits the text into leading whitespace, `@`,
the key, a whitespace separator, the raw value, a terminator and the rest; the
length of the match is the length of everything before the rest. -/
theorem matchLine_split (text K V : List Char) (n : Nat)
    (h : matchLine text = some (K, V, n)) :
    ∃ ws sep trail rest,
      text = ws ++ '@' :: (K ++ (sep ++ (V ++ (trail ++ rest)))) ∧
      (∀ c ∈ ws, isSpaceChar c = true) ∧
      K ≠ [] ∧ (∀ c ∈ K, isSpaceChar c = false) ∧
      (∀ c ∈ sep, isSpaceChar c = true) ∧
      (∀ c ∈ trail, isSpaceChar c = true) ∧
      n = ws.length + 1 + K.length + sep.length + V.length + trail.length ∧
      text.drop n = rest := by
  obtain ⟨t, j, m, h1, h2, h3, hj, hl, -, hn⟩ := matchLine_some _ _ _ _ h
  obtain ⟨hV, tl, htl, hm⟩ := lineTail_some _ _ _ _ hl
  obtain ⟨htr, htrlen⟩ := termLen_take _ _ htl
  have hjR : j ≤ (t.dropWhile notSpaceChar).length :=
    le_trans hj (List.IsPrefix.length_le ( List.takeWhile_prefix _))
  have hseplen : ((t.dropWhile notSpaceChar).take j).length = j := by
    rw [List.length_take]; omega
  have htext : text = text.takeWhile isSpaceChar ++ '@' :: (K ++ ((t.dropWhile notSpaceChar).take j
      ++ (V ++ ((((t.dropWhile notSpaceChar).drop j).dropWhile notLineTerminator).take tl ++
        (((t.dropWhile notSpaceChar).drop j).dropWhile notLineTerminator).drop tl)))) := by
    rw [List.take_append_drop, hV, List.takeWhile_append_dropWhile, List.take_append_drop, h2,
      List.takeWhile_append_dropWhile, ← h1, List.takeWhile_append_dropWhile]
  have hnlen : n = (text.takeWhile isSpaceChar).length + 1 + K.length
      + ((t.dropWhile notSpaceChar).take j).length + V.length
      + ((((t.dropWhile notSpaceChar).drop j).dropWhile notLineTerminator).take tl).length := by
    rw [hseplen, htrlen, hn, hm]; omega
  refine ⟨_, _, _, _, htext, ?_, h3, ?_, ?_, htr, hnlen, ?_⟩
  · intro c hc; exact List.mem_takeWhile_imp hc
  · intro c hc
    rw [h2] at hc
    simpa [notSpaceChar] using List.mem_takeWhile_imp hc
  · intro c hc
    have hpre : (t.dropWhile notSpaceChar).take j
        = ((t.dropWhile notSpaceChar).takeWhile isSpaceChar).take j := by
      conv_lhs => rw [← List.takeWhile_append_dropWhile isSpaceChar (t.dropWhile notSpaceChar)]
      exact List.take_append_of_le_length hj
    rw [hpre] at hc
    exact List.mem_takeWhile_imp (List.mem_of_mem_take hc)
  · conv_lhs => rw [htext, hnlen]
    have hassoc : ∀ (A B C D E F : List Char),
        A ++ '@' :: (B ++ (C ++ (D ++ (E ++ F)))) = (A ++ '@' :: (B ++ (C ++ (D ++ E)))) ++ F := by
      intro A B C D E F; simp
    rw [hassoc]
    apply List.drop_left'
    simp only [List.length_append, List.length_cons]
    omega

theorem increment_text_two (it : iterator) (h : it.increment.m_ok = true) :
    it.increment.m_text.length + 2 ≤ it.m_text.length := by
  obtain ⟨K, V, n, hm, he⟩ := increment_ok it h
  obtain ⟨ws, sep, trail, rest, h1, -, h3, -, -, -, -, h8⟩ := matchLine_split _ _ _ _ hm
  rw [he]
  simp only
  rw [h8]
  have hK : 0 < K.length := List.length_pos.mpr h3
  have hlen := congrArg List.length h1
  simp only [List.length_append, List.length_cons] at hlen
  omega

/-- Every run of increments reaches the sentinel after at most half as many
valid entries as the remaining text has characters. -/
theorem reaches_sentinel_half (L : Nat) :
    ∀ it : iterator, it.m_text.length = L →
      ∃ n, 2 * n ≤ L ∧
        (∀ i, i < n → ((iterator.increment^[i + 1]) it).m_ok = true) ∧
        (iterator.increment^[n + 1]) it = sentinel := by
  induction L using Nat.strong_induction_on with
  | _ L ih =>
    intro it hL
    cases hok : it.increment.m_ok with
    | false =>
      exact ⟨0, by omega, fun i hi => by omega, increment_not_ok it hok⟩
    | true =>
      have hlt := increment_text_two it hok
      obtain ⟨n, hn, h1, h2⟩ := ih it.increment.m_text.length (by omega) it.increment rfl
      refine ⟨n + 1, by omega, ?_, ?_⟩
      · intro i hi
        cases i with
        | zero => exact hok
        | succ i =>
          rw [Function.iterate_succ_apply]
          exact h1 i (by omega)
      · rw [Function.iterate_succ_apply]
        exact h2

/-- C11: every increment that yields a valid entry removes at least two
characters from the remaining text, and from `begin()` an iterator equal to
`end()` is reached after `n` valid entries with `n` at most half the length of
the text; from there on no entry is valid. -/
theorem C11_sequence_is_finite :
    (∀ it : iterator, it.increment.m_ok = true →
      it.increment.m_text.length + 2 ≤ it.m_text.length) ∧
    (∀ text : List Char, ∃ n, n ≤ text.length / 2 ∧
      (∀ i, i < n → ((iterator.increment^[i]) (splitDoxyStyleComments text).begin).m_ok = true) ∧
      (iterator.increment^[n]) (splitDoxyStyleComments text).begin
        = (splitDoxyStyleComments text).end_ ∧
      ((iterator.increment^[n]) (splitDoxyStyleComments text).begin).equals
        (splitDoxyStyleComments text).end_ = true ∧
      (∀ i, n ≤ i →
        ((iterator.increment^[i]) (splitDoxyStyleComments text).begin).m_ok = false)) := by
  refine ⟨increment_text_two, ?_⟩
  intro text
  obtain ⟨n, hn, h1, h2⟩ := reaches_sentinel_half text.length ⟨text, [], [], false⟩ rfl
  refine ⟨n, by omega, ?_, ?_, ?_, ?_⟩
  · intro i hi; rw [iterate_begin]; exact h1 i hi
  · rw [iterate_begin, h2]; rfl
  · rw [iterate_begin, h2]; rfl
  · intro i hi
    obtain ⟨d, rfl⟩ := Nat.exists_eq_add_of_le hi
    rw [Nat.add_comm, Function.iterate_add_apply, iterate_begin text n, h2, iterate_sentinel]
    rfl

theorem reachable_is_increment (text : List Char) (i : Nat) :
    ∃ s : iterator, (iterator.increment^[i]) (splitDoxyStyleComments text).begin = s.increment := by
  cases i with
  | zero => exact ⟨⟨text, [], [], false⟩, rfl⟩
  | succ i =>
    exact ⟨(iterator.increment^[i]) (splitDoxyStyleComments text).begin,
      Function.iterate_succ_apply' _ _ _⟩

/-- C12: every iterator state reached from `begin()` by increments compares
equal to `end()` exactly when its entry has `ok = false`, and then its key and
its value are empty. -/
theorem C12_end_iff_not_ok (text : List Char) (i : Nat) :
    (((iterator.increment^[i]) (splitDoxyStyleComments text).begin).equals
        (splitDoxyStyleComments text).end_ = true ↔
      ((iterator.increment^[i]) (splitDoxyStyleComments text).begin).deref.2.2 = false) ∧
    (((iterator.increment^[i]) (splitDoxyStyleComments text).begin).deref.2.2 = false →
      ((iterator.increment^[i]) (splitDoxyStyleComments text).begin).deref.1 = [] ∧
      ((iterator.increment^[i]) (splitDoxyStyleComments text).begin).deref.2.1 = []) := by
  obtain ⟨s, hs⟩ := reachable_is_increment text i
  rw [hs, end_eq_sentinel]
  cases hok : s.increment.m_ok with
  | false =>
    have := increment_not_ok s hok
    rw [this]
    exact ⟨⟨fun _ => rfl, fun _ => rfl⟩, fun _ => ⟨rfl, rfl⟩⟩
  | true =>
    simp [iterator.equals, iterator.deref, hok, sentinel]

theorem ctor_ws (w t : List Char) (hw : ∀ c ∈ w, isSpaceChar c = true) :
    iterator.ctor (w ++ t) = iterator.ctor t := by
  rw [ctor_eq, ctor_eq, matchLine_ws w t hw]
  cases matchLine t with
  | none => rfl
  | some b =>
    obtain ⟨K, V, n⟩ := b
    simp only
    rw [← List.drop_drop, List.drop_left]

/-- C13: whitespace put in front of a text changes nothing: `begin()` is the
same iterator state, and so is every state reached from it, with the same
entry. -/
theorem C13_leading_whitespace_ignored (w t : List Char)
    (hw : ∀ c ∈ w, isSpaceChar c = true) :
    (splitDoxyStyleComments (w ++ t)).begin = (splitDoxyStyleComments t).begin ∧
    ∀ i, ((iterator.increment^[i]) (splitDoxyStyleComments (w ++ t)).begin).deref
      = ((iterator.increment^[i]) (splitDoxyStyleComments t).begin).deref := by
  have hb : (splitDoxyStyleComments (w ++ t)).begin = (splitDoxyStyleComments t).begin :=
    ctor_ws w t hw
  exact ⟨hb, fun i => by rw [hb]⟩

theorem C13_leading_whitespace_ignored_witness :
    (∀ c ∈ "\n\t\t \r\n  ".toList, isSpaceChar c = true) ∧
    ((splitDoxyStyleComments ("\n\t\t \r\n  ".toList ++ "@a b\n@c d".toList)).begin
        = (splitDoxyStyleComments "@a b\n@c d".toList).begin ∧
      ∀ i, ((iterator.increment^[i])
          (splitDoxyStyleComments ("\n\t\t \r\n  ".toList ++ "@a b\n@c d".toList)).begin).deref
        = ((iterator.increment^[i]) (splitDoxyStyleComments "@a b\n@c d".toList).begin).deref) :=
  ⟨by decide,
    C13_leading_whitespace_ignored "\n\t\t \r\n  ".toList "@a b\n@c d".toList (by decide)⟩

/-- C20: when the first non-whitespace character of the text is not `@`,
`begin()` is `end()` and its entry is the sentinel, whatever the later lines
hold. -/
theorem C20_anchored_at_cursor (text : List Char)
    (h : (text.dropWhile isSpaceChar).head? ≠ some '@') :
    (splitDoxyStyleComments text).begin = (splitDoxyStyleComments text).end_ ∧
    (splitDoxyStyleComments text).begin.equals (splitDoxyStyleComments text).end_ = true ∧
    (splitDoxyStyleComments text).begin.deref = ([], [], false) := by
  have hm : matchLine text = none := by
    cases hm : matchLine text with
    | none => rfl
    | some b =>
      obtain ⟨K, V, n⟩ := b
      obtain ⟨t, j, m, h1, -⟩ := matchLine_some _ _ _ _ hm
      exact absurd (by rw [h1]; rfl) h
  have hb : (splitDoxyStyleComments text).begin = sentinel := by
    unfold KeyValuePairsParser.begin splitDoxyStyleComments
    rw [ctor_eq, hm]
  rw [hb, end_eq_sentinel]
  exact ⟨rfl, rfl, rfl⟩

theorem C20_anchored_at_cursor_witness :
    ("note\n@src 0:1:2".toList.dropWhile isSpaceChar).head? ≠ some '@' ∧
    ((splitDoxyStyleComments "note\n@src 0:1:2".toList).begin
        = (splitDoxyStyleComments "note\n@src 0:1:2".toList).end_ ∧
      (splitDoxyStyleComments "note\n@src 0:1:2".toList).begin.equals
        (splitDoxyStyleComments "note\n@src 0:1:2".toList).end_ = true ∧
      (splitDoxyStyleComments "note\n@src 0:1:2".toList).begin.deref = ([], [], false)) :=
  ⟨by decide, C20_anchored_at_cursor "note\n@src 0:1:2".toList (by decide)⟩

theorem skipLeadingFront_eq (l : List Char) : skipLeadingFront l = l.dropWhile isSpaceChar := by
  induction l with
  | nil => rfl
  | cons c cs ih =>
    by_cases hc : isspace c.toNat = true
    · have hc' : isSpaceChar c = true := hc
      simp [skipLeadingFront, hc, List.dropWhile_cons, hc', ih]
    · have hc' : ¬ isSpaceChar c = true := hc
      simp [skipLeadingFront, hc, List.dropWhile_cons, hc']

theorem incrementFront_eq (it : iterator) :
    it.incrementFront =
      match matchLine it.m_text with
      | none => sentinel
      | some (K, V, n) => ⟨(it.m_text.drop n).dropWhile isSpaceChar, K, trimBack V, true⟩ := by
  obtain ⟨text, key, value, ok⟩ := it
  cases text with
  | nil => rfl
  | cons c cs =>
    simp only [iterator.incrementFront, List.isEmpty_cons, Bool.false_eq_true, if_false]
    rcases regex_search_re (c :: cs) with ⟨h1, h2⟩ | ⟨cm, K, V, n, h1, h2, h3, h4, h5⟩
    · rw [h1, h2]; rfl
    · rw [h1, h2]
      simp only [h3, h4, h5, skipLeadingFront_eq, drop_length_take]

theorem matchLine_dropWhile (x : List Char) :
    matchLine x =
      match matchLine (x.dropWhile isSpaceChar) with
      | none => none
      | some (K, V, n) => some (K, V, (x.takeWhile isSpaceChar).length + n) := by
  have h := matchLine_ws (x.takeWhile isSpaceChar) (x.dropWhile isSpaceChar)
    (fun c hc => List.mem_takeWhile_imp hc)
  rw [List.takeWhile_append_dropWhile] at h
  exact h

theorem drop_takeWhile_add (x : List Char) (n : Nat) :
    x.drop ((x.takeWhile isSpaceChar).length + n) = (x.dropWhile isSpaceChar).drop n := by
  rw [← List.drop_drop, drop_takeWhile_length]

/-- One step of the two iterators from texts that differ in leading whitespace
only: the same entry, and the variant holds the remaining text of the
iterator as written without its leading whitespace. -/
theorem increment_step_agree (a b : iterator)
    (h : b.m_text.dropWhile isSpaceChar = a.m_text.dropWhile isSpaceChar) :
    b.incrementFront.deref = a.increment.deref ∧
      b.incrementFront.m_text = a.increment.m_text.dropWhile isSpaceChar := by
  rw [incrementFront_eq, increment_eq, matchLine_dropWhile a.m_text, matchLine_dropWhile b.m_text, h]
  cases matchLine (a.m_text.dropWhile isSpaceChar) with
  | none => exact ⟨rfl, rfl⟩
  | some r =>
    obtain ⟨K, V, n⟩ := r
    simp only [iterator.deref, drop_takeWhile_add, h, and_self]

theorem iterate_agree (text : List Char) (i : Nat) :
    ((iterator.incrementFront^[i]) (splitDoxyStyleComments text).beginFront).deref
        = ((iterator.increment^[i]) (splitDoxyStyleComments text).begin).deref ∧
      ((iterator.incrementFront^[i]) (splitDoxyStyleComments text).beginFront).m_text
        = ((iterator.increment^[i]) (splitDoxyStyleComments text).begin).m_text.dropWhile
            isSpaceChar := by
  induction i with
  | zero => exact increment_step_agree ⟨text, [], [], false⟩ ⟨text, [], [], false⟩ rfl
  | succ i ih =>
    rw [Function.iterate_succ_apply', Function.iterate_succ_apply']
    apply increment_step_agree
    rw [ih.2]
    exact dropWhile_dropWhile_of_imp isSpaceChar isSpaceChar (fun _ hc => hc) _

/-- C17: at every step the iterator as written and the variant whose loop
removes the leading whitespace of the remaining text give the same entry
`(key, value, ok)`, and the one compares equal to its `end()` exactly when the
other does. -/
theorem C17_dormant_loop_unobservable (text : List Char) (i : Nat) :
    ((iterator.incrementFront^[i]) (splitDoxyStyleComments text).beginFront).deref
        = ((iterator.increment^[i]) (splitDoxyStyleComments text).begin).deref ∧
      ((iterator.incrementFront^[i]) (splitDoxyStyleComments text).beginFront).equals
          (splitDoxyStyleComments text).endFront
        = ((iterator.increment^[i]) (splitDoxyStyleComments text).begin).equals
          (splitDoxyStyleComments text).end_ := by
  obtain ⟨h1, h2⟩ := iterate_agree text i
  refine ⟨h1, ?_⟩
  have hok : ((iterator.incrementFront^[i]) (splitDoxyStyleComments text).beginFront).m_ok
      = ((iterator.increment^[i]) (splitDoxyStyleComments text).begin).m_ok :=
    congrArg (fun e => e.2.2) h1
  have hend : (splitDoxyStyleComments text).endFront = sentinel := rfl
  rw [hend, end_eq_sentinel]
  obtain ⟨s, hs⟩ := reachable_is_increment text i
  cases hsok : s.increment.m_ok with
  | false =>
    have h3 := increment_not_ok s hsok
    rw [hs, h3] at h2 hok ⊢
    simp only [iterator.equals, h2, hok, sentinel, List.dropWhile_nil]
  | true =>
    rw [hs] at hok ⊢
    simp [iterator.equals, hok, hsok, sentinel]

theorem trimBack_append_rest (V : List Char) :
    ∃ t, V = trimBack V ++ t ∧ ∀ c ∈ t, isSpaceChar c = true := by
  refine ⟨(V.reverse.takeWhile isSpaceChar).reverse, ?_, ?_⟩
  · unfold trimBack
    rw [← List.reverse_append, List.takeWhile_append_dropWhile, List.reverse_reverse]
  · intro c hc
    exact List.mem_takeWhile_imp (List.mem_reverse.mp hc)

theorem filter_notSpace_of_space (l : List Char) (h : ∀ c ∈ l, isSpaceChar c = true) :
    l.filter notSpaceChar = [] := by
  rw [List.filter_eq_nil_iff]
  intro c hc
  simp [notSpaceChar, h c hc]

theorem filter_notSpace_of_notSpace (l : List Char) (h : ∀ c ∈ l, isSpaceChar c = false) :
    l.filter notSpaceChar = l := by
  rw [List.filter_eq_self]
  intro c hc
  simp [notSpaceChar, h c hc]

/-- C19: an increment that yields a valid entry splits the remaining text into
whitespace, `@`, the key, whitespace, the value, whitespace, and the new
remaining text; so the consumed part with its whitespace deleted is `@`, the
key and the value with its whitespace deleted. -/
theorem C19_drops_nothing_but_whitespace (it : iterator) (h : it.increment.m_ok = true) :
    ∃ ws sep trail,
      it.m_text = ws ++ '@' :: (it.increment.m_key ++ (sep ++ (it.increment.m_value
        ++ trail))) ++ it.increment.m_text ∧
      (∀ c ∈ ws, isSpaceChar c = true) ∧ (∀ c ∈ sep, isSpaceChar c = true) ∧
      (∀ c ∈ trail, isSpaceChar c = true) ∧
      (ws ++ '@' :: (it.increment.m_key ++ (sep ++ (it.increment.m_value
          ++ trail)))).filter notSpaceChar
        = '@' :: (it.increment.m_key ++ it.increment.m_value.filter notSpaceChar) := by
  obtain ⟨K, V, n, hm, he⟩ := increment_ok it h
  obtain ⟨ws, sep, trail, rest, h1, h2, -, h4, h5, h6, -, h8⟩ := matchLine_split _ _ _ _ hm
  obtain ⟨t, ht1, ht2⟩ := trimBack_append_rest V
  have htr : ∀ c ∈ t ++ trail, isSpaceChar c = true := by
    intro c hc
    rcases List.mem_append.mp hc with hc | hc
    · exact ht2 c hc
    · exact h6 c hc
  have hat : notSpaceChar '@' = true := by decide
  rw [he]
  simp only
  refine ⟨ws, sep, t ++ trail, ?_, h2, h5, htr, ?_⟩
  · rw [h8]
    conv_lhs => rw [h1, ht1]
    simp
  · simp only [List.filter_append, List.filter_cons, hat, if_true,
      filter_notSpace_of_space ws h2, filter_notSpace_of_space sep h5,
      filter_notSpace_of_space t ht2, filter_notSpace_of_space trail h6,
      filter_notSpace_of_notSpace K h4, List.nil_append, List.append_nil]

theorem C19_drops_nothing_but_whitespace_witness :
    (iterator.mk " \t@key  some \t value \r\n @next".toList [] [] false).increment.m_ok = true ∧
    ∃ ws sep trail,
      (iterator.mk " \t@key  some \t value \r\n @next".toList [] [] false).m_text
        = ws ++ '@' ::
          ((iterator.mk " \t@key  some \t value \r\n @next".toList [] [] false).increment.m_key
            ++ (sep ++
              ((iterator.mk " \t@key  some \t value \r\n @next".toList [] [] false).increment.m_value
                ++ trail)))
          ++ (iterator.mk " \t@key  some \t value \r\n @next".toList [] [] false).increment.m_text ∧
      (∀ c ∈ ws, isSpaceChar c = true) ∧ (∀ c ∈ sep, isSpaceChar c = true) ∧
      (∀ c ∈ trail, isSpaceChar c = true) ∧
      (ws ++ '@' ::
          ((iterator.mk " \t@key  some \t value \r\n @next".toList [] [] false).increment.m_key
            ++ (sep ++
              ((iterator.mk " \t@key  some \t value \r\n @next".toList [] [] false).increment.m_value
                ++ trail)))).filter notSpaceChar
        = '@' ::
          ((iterator.mk " \t@key  some \t value \r\n @next".toList [] [] false).increment.m_key
            ++ (iterator.mk " \t@key  some \t value \r\n @next".toList [] [] false
                ).increment.m_value.filter notSpaceChar) :=
  ⟨by decide,
    C19_drops_nothing_but_whitespace
      (iterator.mk " \t@key  some \t value \r\n @next".toList [] [] false) (by decide)⟩

end solidity.langutil

namespace solidity.yul

open solidity.langutil

/-- C14: in every parser state with a documented location, `currentLocation()`
is that range and `currentOverridableLocation()` is that range with `true`,
whatever the location override and the scanner's range are; in every state
without one, the boolean of `currentOverridableLocation()` is `false`. -/
theorem C14_documented_location_first (o : Option SourceLocation) (d scanner : SourceLocation)
    (c : ForLoopComponent) (f : Bool) :
    (Parser.mk o (some d) c f).currentLocation scanner = d ∧
    (Parser.mk o (some d) c f).currentOverridableLocation scanner = (d, true) ∧
    ((Parser.mk o none c f).currentOverridableLocation scanner).2 = false := by
  refine ⟨rfl, rfl, ?_⟩
  cases o <;> rfl

/-- C15, the claim refuted: with no documented location and a caller-supplied
override, `currentLocation()` is not the scanner's range. -/
theorem C15_scanner_range_first_counterexample :
    ¬ (∀ (o : Option SourceLocation) (scanner : SourceLocation) (c : ForLoopComponent)
        (f : Bool), (Parser.mk o none c f).currentLocation scanner = scanner) := by
  intro h
  have h1 := h (some ⟨0, 1, 0⟩) ⟨5, 9, 0⟩ ForLoopComponent.None false
  revert h1
  decide

/-- C15 as amended: with no documented location, `currentLocation()` is the
caller-supplied override when the constructor was given one, and the scanner's
range only when it was given none. -/
theorem C15_override_before_scanner (l scanner : SourceLocation) (c : ForLoopComponent)
    (f : Bool) :
    (Parser.mk (some l) none c f).currentLocation scanner = l ∧
    (Parser.mk none none c f).currentLocation scanner = scanner ∧
    (Parser.ctor (some l)).currentLocation scanner = l ∧
    (Parser.ctor none).currentLocation scanner = scanner :=
  ⟨rfl, rfl, rfl, rfl⟩

/-- C18: in every parser state the range of `currentOverridableLocation()` is
`currentLocation()`. -/
theorem C18_accessors_agree (p : Parser) (scanner : SourceLocation) :
    (p.currentOverridableLocation scanner).1 = p.currentLocation scanner := by
  obtain ⟨o, d, c, f⟩ := p
  cases d with
  | some d => rfl
  | none => cases o <;> rfl

end solidity.yul
